import Mathlib

/-!
Verification of the GEDCOM family-tree site generator
(`generate_family_tree.py`).

The Python source is shallowly embedded below: each Python function that
the claims mention is translated into an executable Lean definition over
explicit data (strings as `String`, dictionaries as insertion-ordered
association lists, fallible code as `Except`/`Option`).  Theorems about
the claims follow the definitions.
-/

/-! ## Basic string machinery shared by the embedded functions -/

/-- Python whitespace characters recognised by `str.strip()` and the
regex class `\s` (ASCII range). -/
def isPySpace (c : Char) : Bool :=
  c == ' ' || c == '\t' || c == '\n' || c == '\r' || c == '\x0b' || c == '\x0c'

/-- Strip characters satisfying `p` from both ends, as Python
`str.strip`/`str.strip(chars)` does. -/
def stripWhile (p : Char → Bool) (s : String) : String :=
  ⟨((s.data.dropWhile p).reverse.dropWhile p).reverse⟩

/-- Python `str.strip()` (no argument): strip whitespace from both ends. -/
def pyStrip (s : String) : String := stripWhile isPySpace s

/-- Python `str.strip(chars)` for a single strip character. -/
def stripChar (c : Char) (s : String) : String := stripWhile (fun x => x == c) s

/-- Python `str.lower()` restricted to the ASCII range (all characters the
source manipulates after its ASCII-only regex splits are ASCII). -/
def pyLower (s : String) : String := ⟨s.data.map Char.toLower⟩

/-- `re.sub(p+, rep, l)`: replace every maximal run of characters
satisfying `p` by the single character `rep`. -/
def collapseRuns (p : Char → Bool) (rep : Char) : List Char → List Char
  | [] => []
  | c :: rest =>
    match rest with
    | [] => if p c then [rep] else [c]
    | c2 :: rest2 =>
      if p c && p c2 then collapseRuns p rep (c2 :: rest2)
      else (if p c then rep else c) :: collapseRuns p rep (c2 :: rest2)

/-- The character class `[a-z0-9]` used by `normalise` and `slugify`. -/
def isLowerAlnum (c : Char) : Bool := c.isLower || c.isDigit

/-! ## Data model (`Event`, `Individual`, `Family`) -/

/-- `Event`: a dated/placed event (birth, death, marriage). -/
structure Event where
  date : Option String := none
  place : Option String := none
deriving DecidableEq, Repr

/-- `Individual`: one person record from the GEDCOM file. -/
structure Individual where
  id : String
  name : String := ""
  given_name : String := ""
  surname : String := ""
  sex : String := ""
  famc : Option String := none
  fams : List String := []
  birth : Event := {}
  death : Event := {}
deriving DecidableEq, Repr

/-- `Family`: one family record (husband, wife, children). -/
structure Family where
  id : String
  husband : Option String := none
  wife : Option String := none
  children : List String := []
  marriage : Event := {}
deriving DecidableEq, Repr

/-! ## Python dictionaries as insertion-ordered association lists -/

/-- A Python `dict` keyed by strings: an association list in insertion
order, with at most one entry per key in any state the program builds. -/
abbrev Dict (α : Type) := List (String × α)

/-- `d.get(k)` -/
def dictGet {α : Type} (d : Dict α) (k : String) : Option α :=
  (d.find? (fun p => p.1 == k)).map (fun p => p.2)

/-- `d[k] = v`: overwrite in place when the key exists, append otherwise
(Python dicts keep the original insertion position on overwrite). -/
def dictInsert {α : Type} (k : String) (v : α) (d : Dict α) : Dict α :=
  if d.any (fun p => p.1 == k) then d.map (fun p => if p.1 == k then (k, v) else p)
  else d ++ [(k, v)]

/-- Mutation of the record object stored under key `k` (the Python code
mutates `current_individual`/`current_family`, which is the same object
as the dictionary entry). -/
def dictUpdate {α : Type} (k : String) (f : α → α) (d : Dict α) : Dict α :=
  d.map (fun p => if p.1 == k then (p.1, f p.2) else p)

/-- `d.values()` in insertion order. -/
def dictValues {α : Type} (d : Dict α) : List α := d.map (fun p => p.2)

/-! ## The GEDCOM line parser (`GedcomParser.parse`) -/

/-- `raw_line.rstrip("\n\r")` -/
def rstripNl (s : String) : String :=
  ⟨((s.data.reverse).dropWhile (fun c => c == '\n' || c == '\r')).reverse⟩

/-- Python `s.startswith(pre)`. -/
def strStartsWith (s pre : String) : Bool := pre.data.isPrefixOf s.data

/-- Python `s.endswith(suf)`. -/
def strEndsWith (s suf : String) : Bool := suf.data.isSuffixOf s.data

/-- Split a character list at the first space, if any. -/
def splitFirstSpace : List Char → List Char × Option (List Char)
  | [] => ([], none)
  | c :: rest =>
    if c = ' ' then ([], some rest)
    else
      let (w, r) := splitFirstSpace rest
      (c :: w, r)

/-- Python `line.split(" ", 2)`: split on single spaces at most twice
(empty tokens are kept, the third part keeps its interior spaces). -/
def splitMax2 (s : String) : List String :=
  match splitFirstSpace s.data with
  | (w0, none) => [⟨w0⟩]
  | (w0, some r1) =>
    match splitFirstSpace r1 with
    | (w1, none) => [⟨w0⟩, ⟨w1⟩]
    | (w1, some r2) => [⟨w0⟩, ⟨w1⟩, ⟨r2⟩]

/-- Value of a Python integer-literal digit sequence (digits with single
interior underscores), accumulator form. -/
def intDigitsAux (acc : Nat) : List Char → Option Nat
  | [] => some acc
  | '_' :: c :: rest =>
    if c.isDigit then intDigitsAux (acc * 10 + (c.toNat - 48)) rest else none
  | c :: rest =>
    if c.isDigit then intDigitsAux (acc * 10 + (c.toNat - 48)) rest else none

/-- Parse a nonempty Python digit sequence. -/
def intDigits : List Char → Option Nat
  | [] => none
  | c :: rest => if c.isDigit then intDigitsAux (c.toNat - 48) rest else none

/-- Python `int(s)`: optional surrounding whitespace, optional sign, then a
digit sequence; `none` models the `ValueError` the caller catches. -/
def pyInt (s : String) : Option Int :=
  let cs := ((s.data.dropWhile isPySpace).reverse.dropWhile isPySpace).reverse
  match cs with
  | '+' :: rest => (intDigits rest).map (fun n => (n : Int))
  | '-' :: rest => (intDigits rest).map (fun n => -(n : Int))
  | rest => (intDigits rest).map (fun n => (n : Int))

/-- The level/tag/value decomposition of one raw line; `none` exactly when
the parser skips the line before dispatching on the level (blank line,
wrong token count, non-integer level). -/
def lineFields (raw : String) : Option (Int × String × String) :=
  if rstripNl raw = "" then none
  else
    match splitMax2 (rstripNl raw) with
    | [level_str, tag] => (pyInt level_str).map (fun lvl => (lvl, tag, ""))
    | [level_str, tag, value] => (pyInt level_str).map (fun lvl => (lvl, tag, value))
    | _ => none

/-- Pointer extraction: a tag token of the form `@...@` is a pointer, and
the actual tag is then taken from the value slot. -/
def pointerSplit (tag0 value0 : String) : Option String × String × String :=
  if strStartsWith tag0 "@" && strEndsWith tag0 "@" then (some tag0, value0, "")
  else (none, tag0, value0)

/-- Parser state: the two result dictionaries plus the current-record and
current-subsection context.  The current records are tracked by pointer;
the object the Python code mutates is always the dictionary entry under
that pointer. -/
structure ParseState where
  individuals : Dict Individual := []
  families : Dict Family := []
  current_individual : Option String := none
  current_family : Option String := none
  current_section : Option String := none
deriving DecidableEq, Repr

/-- Level-0 dispatch: open a fresh INDI or FAM record under a pointer, or
reset the record context for any other tag. -/
def doLevel0 (st : ParseState) (pointer : Option String) (tag : String) : ParseState :=
  match pointer with
  | some ptr =>
    if tag = "INDI" then
      { st with individuals := dictInsert ptr { id := ptr } st.individuals,
                current_individual := some ptr, current_family := none,
                current_section := none }
    else if tag = "FAM" then
      { st with families := dictInsert ptr { id := ptr } st.families,
                current_individual := none, current_family := some ptr,
                current_section := none }
    else
      { st with current_individual := none, current_family := none,
                current_section := none }
  | none =>
    { st with current_individual := none, current_family := none,
              current_section := none }

/-- Level-1 field population of an open individual record. -/
def applyLevel1Indi (ind : Individual) (tag value : String) : Individual :=
  if tag = "NAME" then { ind with name := value }
  else if tag = "GIVN" then { ind with given_name := value }
  else if tag = "SURN" then { ind with surname := value }
  else if tag = "SEX" then { ind with sex := value }
  else if tag = "FAMC" then { ind with famc := some value }
  else if tag = "FAMS" then { ind with fams := ind.fams ++ [value] }
  else ind

/-- Level-1 field population of an open family record. -/
def applyLevel1Fam (fam : Family) (tag value : String) : Family :=
  if tag = "HUSB" then { fam with husband := some value }
  else if tag = "WIFE" then { fam with wife := some value }
  else if tag = "CHIL" then { fam with children := fam.children ++ [value] }
  else fam

/-- Level-1 dispatch: record the subsection tag and populate the open
record, if any. -/
def doLevel1 (st : ParseState) (tag value : String) : ParseState :=
  let st1 := { st with current_section := some tag }
  match st1.current_individual with
  | some p =>
    { st1 with
      individuals := dictUpdate p (fun ind => applyLevel1Indi ind tag value) st1.individuals }
  | none =>
    match st1.current_family with
    | some p =>
      { st1 with
        families := dictUpdate p (fun fam => applyLevel1Fam fam tag value) st1.families }
    | none => st1

/-- Level-2 date/place population of an open individual record. -/
def applyLevel2Indi (ind : Individual) (sec : Option String) (tag value : String) :
    Individual :=
  if sec = some "BIRT" then
    if tag = "DATE" then { ind with birth := { ind.birth with date := some value } }
    else if tag = "PLAC" then { ind with birth := { ind.birth with place := some value } }
    else ind
  else if sec = some "DEAT" then
    if tag = "DATE" then { ind with death := { ind.death with date := some value } }
    else if tag = "PLAC" then { ind with death := { ind.death with place := some value } }
    else ind
  else ind

/-- Level-2 date/place population of an open family record. -/
def applyLevel2Fam (fam : Family) (sec : Option String) (tag value : String) : Family :=
  if sec = some "MARR" then
    if tag = "DATE" then { fam with marriage := { fam.marriage with date := some value } }
    else if tag = "PLAC" then { fam with marriage := { fam.marriage with place := some value } }
    else fam
  else fam

/-- Level-2 dispatch: populate the open subsection of the open record. -/
def doLevel2 (st : ParseState) (tag value : String) : ParseState :=
  match st.current_individual with
  | some p =>
    { st with
      individuals :=
        dictUpdate p (fun ind => applyLevel2Indi ind st.current_section tag value) st.individuals }
  | none =>
    match st.current_family with
    | some p =>
      { st with
        families :=
          dictUpdate p (fun fam => applyLevel2Fam fam st.current_section tag value) st.families }
    | none => st

/-- One iteration of the `for raw_line in fh` loop of `GedcomParser.parse`. -/
def processLine (st : ParseState) (raw : String) : ParseState :=
  match lineFields raw with
  | none => st
  | some (level, tag0, value0) =>
    let pv := pointerSplit tag0 value0
    if level = 0 then doLevel0 st pv.1 pv.2.1
    else if level = 1 then doLevel1 st pv.2.1 pv.2.2
    else if level = 2 then doLevel2 st pv.2.1 pv.2.2
    else st

/-- `GedcomParser.parse`: fold the line handler over the input lines and
return the two dictionaries. -/
def parse (lines : List String) : Dict Individual × Dict Family :=
  let st := lines.foldl processLine {}
  (st.individuals, st.families)


/-! ## Dictionary lemmas -/

theorem dictGet_cons {α : Type} (a : String) (v : α) (t : Dict α) (k : String) :
    dictGet ((a, v) :: t) k = if a == k then some v else dictGet t k := by
  by_cases hak : (a == k) = true
  · simp [dictGet, List.find?, hak]
  · simp only [Bool.not_eq_true] at hak
    simp [dictGet, List.find?, hak]

theorem dictUpdate_cons {α : Type} (key : String) (f : α → α) (a : String) (v : α)
    (t : Dict α) :
    dictUpdate key f ((a, v) :: t) =
      (if a == key then (a, f v) else (a, v)) :: dictUpdate key f t := rfl

theorem dictGet_dictUpdate_ne {α : Type} (d : Dict α) (key k : String) (f : α → α)
    (h : key ≠ k) : dictGet (dictUpdate key f d) k = dictGet d k := by
  induction d with
  | nil => rfl
  | cons e rest ih =>
    rcases e with ⟨a, v⟩
    rw [dictUpdate_cons]
    by_cases hak : (a == key) = true
    · rw [if_pos hak, dictGet_cons, dictGet_cons]
      have hk : (a == k) = false := by
        have : a = key := by simpa using hak
        simp [this, h]
      rw [hk]
      simp only [Bool.false_eq_true, if_false]
      exact ih
    · rw [if_neg hak, dictGet_cons, dictGet_cons]
      by_cases hk : (a == k) = true
      · simp [hk]
      · rw [if_neg hk, if_neg hk]
        exact ih

/-! ## Shape lemmas for the three dispatch levels -/

theorem doLevel1_of_indi (st : ParseState) (p tag value : String)
    (hci : st.current_individual = some p) :
    doLevel1 st tag value =
      { st with current_section := some tag,
                individuals :=
                  dictUpdate p (fun ind => applyLevel1Indi ind tag value) st.individuals } := by
  simp [doLevel1, hci]

theorem doLevel1_of_fam (st : ParseState) (p tag value : String)
    (hci : st.current_individual = none) (hcf : st.current_family = some p) :
    doLevel1 st tag value =
      { st with current_section := some tag,
                families :=
                  dictUpdate p (fun fam => applyLevel1Fam fam tag value) st.families } := by
  simp [doLevel1, hci, hcf]

theorem doLevel1_of_none (st : ParseState) (tag value : String)
    (hci : st.current_individual = none) (hcf : st.current_family = none) :
    doLevel1 st tag value = { st with current_section := some tag } := by
  simp [doLevel1, hci, hcf]

theorem doLevel2_of_indi (st : ParseState) (p tag value : String)
    (hci : st.current_individual = some p) :
    doLevel2 st tag value =
      { st with
          individuals :=
            dictUpdate p (fun ind => applyLevel2Indi ind st.current_section tag value)
              st.individuals } := by
  simp [doLevel2, hci]

theorem doLevel2_of_fam (st : ParseState) (p tag value : String)
    (hci : st.current_individual = none) (hcf : st.current_family = some p) :
    doLevel2 st tag value =
      { st with
          families :=
            dictUpdate p (fun fam => applyLevel2Fam fam st.current_section tag value)
              st.families } := by
  simp [doLevel2, hci, hcf]

theorem doLevel2_of_none (st : ParseState) (tag value : String)
    (hci : st.current_individual = none) (hcf : st.current_family = none) :
    doLevel2 st tag value = st := by
  simp [doLevel2, hci, hcf]

theorem processLine_level1 (st : ParseState) (raw tag0 value0 : String)
    (h : lineFields raw = some (1, tag0, value0)) :
    processLine st raw =
      doLevel1 st (pointerSplit tag0 value0).2.1 (pointerSplit tag0 value0).2.2 := by
  simp [processLine, h]

theorem processLine_level2 (st : ParseState) (raw tag0 value0 : String)
    (h : lineFields raw = some (2, tag0, value0)) :
    processLine st raw =
      doLevel2 st (pointerSplit tag0 value0).2.1 (pointerSplit tag0 value0).2.2 := by
  simp [processLine, h]

/-! ## Theorems for claims C1 and C2 (the line parser) -/

/-- C1: a level-0 line whose tag token is an @-delimited pointer followed by
INDI or FAM opens a fresh Individual or Family record stored under that
pointer in the corresponding mapping; every other level-0 line resets the
current-record and current-subsection context and leaves both mappings
untouched; and a level-1 or level-2 line can change the mappings only at
the currently open pointers (and leaves the current-record pointers
unchanged), so a record closed by a level-0 boundary is never modified by
subsequent level-1 or level-2 lines. -/
theorem claim_C1_level0_records :
    (∀ (st : ParseState) (raw ptr value : String),
        lineFields raw = some (0, ptr, value) →
        strStartsWith ptr "@" = true → strEndsWith ptr "@" = true →
        (value = "INDI" →
          processLine st raw =
            { st with individuals := dictInsert ptr { id := ptr } st.individuals,
                      current_individual := some ptr, current_family := none,
                      current_section := none }) ∧
        (value = "FAM" →
          processLine st raw =
            { st with families := dictInsert ptr { id := ptr } st.families,
                      current_individual := none, current_family := some ptr,
                      current_section := none })) ∧
    (∀ (st : ParseState) (raw tag0 value0 : String),
        lineFields raw = some (0, tag0, value0) →
        ¬((strStartsWith tag0 "@" && strEndsWith tag0 "@") = true ∧
            (value0 = "INDI" ∨ value0 = "FAM")) →
        processLine st raw =
          { st with current_individual := none, current_family := none,
                    current_section := none }) ∧
    (∀ (st : ParseState) (raw : String) (lvl : Int) (tag0 value0 k : String),
        lineFields raw = some (lvl, tag0, value0) → (lvl = 1 ∨ lvl = 2) →
        st.current_individual ≠ some k → st.current_family ≠ some k →
        dictGet (processLine st raw).individuals k = dictGet st.individuals k ∧
        dictGet (processLine st raw).families k = dictGet st.families k ∧
        (processLine st raw).current_individual = st.current_individual ∧
        (processLine st raw).current_family = st.current_family) := by
  refine ⟨?_, ?_, ?_⟩
  · intro st raw ptr value h hsw hew
    constructor
    · intro hv
      subst hv
      simp [processLine, h, pointerSplit, hsw, hew, doLevel0]
    · intro hv
      subst hv
      simp [processLine, h, pointerSplit, hsw, hew, doLevel0]
  · intro st raw tag0 value0 h hno
    by_cases hb : (strStartsWith tag0 "@" && strEndsWith tag0 "@") = true
    · have hvi : value0 ≠ "INDI" := fun hc => hno ⟨hb, Or.inl hc⟩
      have hvf : value0 ≠ "FAM" := fun hc => hno ⟨hb, Or.inr hc⟩
      simp [processLine, h, pointerSplit, hb, doLevel0, hvi, hvf]
    · simp only [Bool.not_eq_true] at hb
      simp [processLine, h, pointerSplit, hb, doLevel0]
  · intro st raw lvl tag0 value0 k h hlv hne1 hne2
    have main1 : ∀ tag value : String,
        dictGet (doLevel1 st tag value).individuals k = dictGet st.individuals k ∧
        dictGet (doLevel1 st tag value).families k = dictGet st.families k ∧
        (doLevel1 st tag value).current_individual = st.current_individual ∧
        (doLevel1 st tag value).current_family = st.current_family := by
      intro tag value
      cases hci : st.current_individual with
      | some p =>
        have hpk : p ≠ k := fun hc => hne1 (hc ▸ hci)
        rw [doLevel1_of_indi st p tag value hci]
        exact ⟨dictGet_dictUpdate_ne st.individuals p k
          (fun ind => applyLevel1Indi ind tag value) hpk, rfl, hci, rfl⟩
      | none =>
        cases hcf : st.current_family with
        | some p =>
          have hpk : p ≠ k := fun hc => hne2 (hc ▸ hcf)
          rw [doLevel1_of_fam st p tag value hci hcf]
          exact ⟨rfl, dictGet_dictUpdate_ne st.families p k
            (fun fam => applyLevel1Fam fam tag value) hpk, hci, hcf⟩
        | none =>
          rw [doLevel1_of_none st tag value hci hcf]
          exact ⟨rfl, rfl, hci, hcf⟩
    have main2 : ∀ tag value : String,
        dictGet (doLevel2 st tag value).individuals k = dictGet st.individuals k ∧
        dictGet (doLevel2 st tag value).families k = dictGet st.families k ∧
        (doLevel2 st tag value).current_individual = st.current_individual ∧
        (doLevel2 st tag value).current_family = st.current_family := by
      intro tag value
      cases hci : st.current_individual with
      | some p =>
        have hpk : p ≠ k := fun hc => hne1 (hc ▸ hci)
        rw [doLevel2_of_indi st p tag value hci]
        exact ⟨dictGet_dictUpdate_ne st.individuals p k
          (fun ind => applyLevel2Indi ind st.current_section tag value) hpk, rfl, hci, rfl⟩
      | none =>
        cases hcf : st.current_family with
        | some p =>
          have hpk : p ≠ k := fun hc => hne2 (hc ▸ hcf)
          rw [doLevel2_of_fam st p tag value hci hcf]
          exact ⟨rfl, dictGet_dictUpdate_ne st.families p k
            (fun fam => applyLevel2Fam fam st.current_section tag value) hpk, hci, hcf⟩
        | none =>
          rw [doLevel2_of_none st tag value hci hcf]
          exact ⟨rfl, rfl, hci, hcf⟩
    rcases hlv with h1 | h2
    · subst h1
      rw [processLine_level1 st raw tag0 value0 h]
      exact main1 _ _
    · subst h2
      rw [processLine_level2 st raw tag0 value0 h]
      exact main2 _ _

/-- Witness for C1: the concrete line "0 @I1@ INDI" opens a fresh
individual record keyed by its pointer. -/
theorem claim_C1_level0_records_witness :
    processLine {} "0 @I1@ INDI" =
      { individuals := [("@I1@", { id := "@I1@" })], families := [],
        current_individual := some "@I1@", current_family := none,
        current_section := none } := by
  have h := (claim_C1_level0_records.1 {} "0 @I1@ INDI" "@I1@" "INDI" rfl rfl rfl).1 rfl
  rw [h]
  rfl

/-- C2: parsing is total (it always returns the two mappings), and blank
lines, lines with a single token, lines whose level token is not an
integer, and lines at level 3 or deeper leave the parser state untouched,
so they modify no record. -/
theorem claim_C2_malformed_lines_skipped :
    (∀ lines : List String, ∃ inds fams, parse lines = (inds, fams)) ∧
    (∀ (st : ParseState) (raw : String), rstripNl raw = "" → processLine st raw = st) ∧
    (∀ (st : ParseState) (raw : String), (splitMax2 (rstripNl raw)).length = 1 →
        processLine st raw = st) ∧
    (∀ (st : ParseState) (raw level_str : String) (rest : List String),
        splitMax2 (rstripNl raw) = level_str :: rest → pyInt level_str = none →
        processLine st raw = st) ∧
    (∀ (st : ParseState) (raw : String) (lvl : Int) (tag0 value0 : String),
        lineFields raw = some (lvl, tag0, value0) → 3 ≤ lvl →
        processLine st raw = st) := by
  refine ⟨fun lines => ⟨_, _, rfl⟩, ?_, ?_, ?_, ?_⟩
  · intro st raw hblank
    have h : lineFields raw = none := by
      simp [lineFields, hblank]
    simp [processLine, h]
  · intro st raw hlen
    have h : lineFields raw = none := by
      by_cases hline : rstripNl raw = ""
      · simp [lineFields, hline]
      · unfold lineFields
        rw [if_neg hline]
        rcases hsp : splitMax2 (rstripNl raw) with _ | ⟨a, _ | ⟨b, _ | ⟨c, r⟩⟩⟩ <;>
          rw [hsp] at hlen <;> simp_all
    simp [processLine, h]
  · intro st raw level_str rest hsp hint
    have h : lineFields raw = none := by
      by_cases hline : rstripNl raw = ""
      · simp [lineFields, hline]
      · unfold lineFields
        rw [if_neg hline, hsp]
        rcases rest with _ | ⟨b, _ | ⟨c, _ | ⟨d, rest4⟩⟩⟩ <;> simp [hint]
    simp [processLine, h]
  · intro st raw lvl tag0 value0 h h3
    simp only [processLine, h]
    rw [if_neg (by omega), if_neg (by omega), if_neg (by omega)]

/-- Witness for C2 at concrete malformed lines: a blank line, a
single-token line, a non-integer level, and a level-3 line. -/
theorem claim_C2_malformed_lines_skipped_witness :
    processLine {} "" = {} ∧ processLine {} "TRLR" = {} ∧
    processLine {} "x NAME v" = {} ∧ processLine {} "3 DATE deep" = {} :=
  ⟨claim_C2_malformed_lines_skipped.2.1 {} "" rfl,
    claim_C2_malformed_lines_skipped.2.2.1 {} "TRLR" rfl,
    claim_C2_malformed_lines_skipped.2.2.2.1 {} "x NAME v" "x" ["NAME", "v"] rfl rfl,
    claim_C2_malformed_lines_skipped.2.2.2.2 {} "3 DATE deep" 3 "DATE" "deep" rfl
      (by omega)⟩

/-! ## Name normalisation and display names -/

/-- `normalise`: lowercase, collapse non-`[a-z0-9]` runs to single spaces,
strip. -/
def normalise (text : String) : String :=
  pyStrip ⟨collapseRuns (fun c => !isLowerAlnum c) ' ' (pyLower text).data⟩

/-- `Individual.display_name`: strip the GEDCOM surname slashes from the
raw name and collapse whitespace, or fall back to given/surname pieces,
or to the identifier. -/
def display_name (ind : Individual) : String :=
  if ind.name ≠ "" then
    let cleaned := pyStrip ⟨ind.name.data.filter (fun c => c ≠ '/')⟩
    ⟨collapseRuns isPySpace ' ' cleaned.data⟩
  else
    let pieces :=
      (if ind.given_name ≠ "" then [ind.given_name] else []) ++
        (if ind.surname ≠ "" then [ind.surname] else [])
    if pieces ≠ [] then String.intercalate " " pieces else ind.id

/-! ## Date parsing (`parse_date_string` and `DATE_FORMATS`) -/

/-- A `datetime.datetime` value as produced by the date parser (the time
part is always midnight and is never consulted). -/
structure PyDate where
  year : Nat
  month : Nat
  day : Nat
deriving DecidableEq, Repr

def isLeapYear (y : Nat) : Bool :=
  y % 4 = 0 && (y % 100 != 0 || y % 400 = 0)

def daysInMonth (y m : Nat) : Nat :=
  if m = 2 then (if isLeapYear y then 29 else 28)
  else if m = 4 ∨ m = 6 ∨ m = 9 ∨ m = 11 then 30
  else 31

/-- The `datetime.datetime(year, month, day)` constructor succeeds exactly
on these arguments; otherwise it raises `ValueError`. -/
def isValidDate (y m d : Nat) : Bool :=
  decide (1 ≤ y ∧ y ≤ 9999 ∧ 1 ≤ m ∧ m ≤ 12 ∧ 1 ≤ d ∧ d ≤ daysInMonth y m)

def digitVal (c : Char) : Nat := c.toNat - 48

def natOfDigits (l : List Char) : Nat := l.foldl (fun a c => a * 10 + digitVal c) 0

/-- Candidates for the strptime `%d` token, in the alternation order of the
regex `3[01]|[12]\d|0[1-9]|[1-9]` (value, remaining input). -/
def matchDay : List Char → List (Nat × List Char)
  | [] => []
  | [c1] => if '1' ≤ c1 ∧ c1 ≤ '9' then [(digitVal c1, [])] else []
  | c1 :: c2 :: rest =>
    (if c1 = '3' ∧ (c2 = '0' ∨ c2 = '1') then [(30 + digitVal c2, rest)] else []) ++
    (if (c1 = '1' ∨ c1 = '2') ∧ c2.isDigit then
        [(10 * digitVal c1 + digitVal c2, rest)] else []) ++
    (if c1 = '0' ∧ ('1' ≤ c2 ∧ c2 ≤ '9') then [(digitVal c2, rest)] else []) ++
    (if '1' ≤ c1 ∧ c1 ≤ '9' then [(digitVal c1, c2 :: rest)] else [])

/-- Candidates for the strptime `%m` token (regex `1[0-2]|0[1-9]|[1-9]`). -/
def matchMonth : List Char → List (Nat × List Char)
  | [] => []
  | [c1] => if '1' ≤ c1 ∧ c1 ≤ '9' then [(digitVal c1, [])] else []
  | c1 :: c2 :: rest =>
    (if c1 = '1' ∧ (c2 = '0' ∨ c2 = '1' ∨ c2 = '2') then [(10 + digitVal c2, rest)] else []) ++
    (if c1 = '0' ∧ ('1' ≤ c2 ∧ c2 ≤ '9') then [(digitVal c2, rest)] else []) ++
    (if '1' ≤ c1 ∧ c1 ≤ '9' then [(digitVal c1, c2 :: rest)] else [])

/-- The strptime `%Y` token: exactly four digits. -/
def matchYear4 : List Char → List (Nat × List Char)
  | c1 :: c2 :: c3 :: c4 :: rest =>
    if c1.isDigit ∧ c2.isDigit ∧ c3.isDigit ∧ c4.isDigit then
      [(digitVal c1 * 1000 + digitVal c2 * 100 + digitVal c3 * 10 + digitVal c4, rest)]
    else []
  | _ => []

/-- The strptime `%y` token: exactly two digits; values 0-68 mean 20xx and
69-99 mean 19xx. -/
def matchYear2 : List Char → List (Nat × List Char)
  | c1 :: c2 :: rest =>
    if c1.isDigit ∧ c2.isDigit then
      [((fun v => if v ≤ 68 then 2000 + v else 1900 + v) (digitVal c1 * 10 + digitVal c2),
         rest)]
    else []
  | _ => []

/-- C-locale month abbreviations for `%b` (1-based month numbers). -/
def MONTH_ABBRS : List (String × Nat) :=
  [("jan", 1), ("feb", 2), ("mar", 3), ("apr", 4), ("may", 5), ("jun", 6),
   ("jul", 7), ("aug", 8), ("sep", 9), ("oct", 10), ("nov", 11), ("dec", 12)]

/-- C-locale full month names for `%B`. -/
def MONTH_NAMES : List (String × Nat) :=
  [("january", 1), ("february", 2), ("march", 3), ("april", 4), ("may", 5),
   ("june", 6), ("july", 7), ("august", 8), ("september", 9), ("october", 10),
   ("november", 11), ("december", 12)]

/-- Case-insensitive month-name token (strptime compiles its regex with
IGNORECASE; no month name is a prefix of another, so at most one
alternative matches). -/
def matchMonthName (names : List (String × Nat)) (cs : List Char) :
    List (Nat × List Char) :=
  names.filterMap (fun nm =>
    if nm.1.data.isPrefixOf (cs.map Char.toLower) then
      some (nm.2, cs.drop nm.1.data.length)
    else none)

/-- A single literal character of a strptime format. -/
def matchLit (c : Char) : List Char → List (List Char)
  | d :: rest => if d = c then [rest] else []
  | [] => []

/-- Whitespace in a strptime format matches the regex `\s+`; candidates are
listed greedily (longest first). -/
def matchWsCands (cs : List Char) : List (List Char) :=
  (List.range (cs.takeWhile isPySpace).length).map
    (fun i => cs.drop ((cs.takeWhile isPySpace).length - i))

/-- Format "%m/%d/%Y": full matches in regex backtracking order, as
`(year, month, day)` triples. -/
def fmt_mdY (cs : List Char) : List (Nat × Nat × Nat) :=
  (matchMonth cs).flatMap (fun pm =>
    (matchLit '/' pm.2).flatMap (fun r1 =>
      (matchDay r1).flatMap (fun pd =>
        (matchLit '/' pd.2).flatMap (fun r2 =>
          (matchYear4 r2).flatMap (fun py =>
            if py.2 = [] then [(py.1, pm.1, pd.1)] else [])))))

/-- Format "%m/%d/%y". -/
def fmt_mdy (cs : List Char) : List (Nat × Nat × Nat) :=
  (matchMonth cs).flatMap (fun pm =>
    (matchLit '/' pm.2).flatMap (fun r1 =>
      (matchDay r1).flatMap (fun pd =>
        (matchLit '/' pd.2).flatMap (fun r2 =>
          (matchYear2 r2).flatMap (fun py =>
            if py.2 = [] then [(py.1, pm.1, pd.1)] else [])))))

/-- Format "%d/%m/%Y". -/
def fmt_dmY (cs : List Char) : List (Nat × Nat × Nat) :=
  (matchDay cs).flatMap (fun pd =>
    (matchLit '/' pd.2).flatMap (fun r1 =>
      (matchMonth r1).flatMap (fun pm =>
        (matchLit '/' pm.2).flatMap (fun r2 =>
          (matchYear4 r2).flatMap (fun py =>
            if py.2 = [] then [(py.1, pm.1, pd.1)] else [])))))

/-- Formats "%d %b %Y" and "%d %B %Y", parameterised by the name table. -/
def fmt_d_name_Y (names : List (String × Nat)) (cs : List Char) :
    List (Nat × Nat × Nat) :=
  (matchDay cs).flatMap (fun pd =>
    (matchWsCands pd.2).flatMap (fun r1 =>
      (matchMonthName names r1).flatMap (fun pm =>
        (matchWsCands pm.2).flatMap (fun r2 =>
          (matchYear4 r2).flatMap (fun py =>
            if py.2 = [] then [(py.1, pm.1, pd.1)] else [])))))

/-- Formats "%b %d %Y" and "%B %d %Y", parameterised by the name table. -/
def fmt_name_d_Y (names : List (String × Nat)) (cs : List Char) :
    List (Nat × Nat × Nat) :=
  (matchMonthName names cs).flatMap (fun pm =>
    (matchWsCands pm.2).flatMap (fun r1 =>
      (matchDay r1).flatMap (fun pd =>
        (matchWsCands pd.2).flatMap (fun r2 =>
          (matchYear4 r2).flatMap (fun py =>
            if py.2 = [] then [(py.1, pm.1, pd.1)] else [])))))

/-- `DATE_FORMATS`, in source order, as regex-style matchers. -/
def DATE_FORMAT_MATCHERS : List (List Char → List (Nat × Nat × Nat)) :=
  [fmt_mdY, fmt_mdy, fmt_dmY,
   fmt_d_name_Y MONTH_ABBRS, fmt_d_name_Y MONTH_NAMES,
   fmt_name_d_Y MONTH_ABBRS, fmt_name_d_Y MONTH_NAMES]

/-- The `for fmt in DATE_FORMATS: try: return strptime(...)` loop: the
first format whose regex matches and whose matched values form a valid
calendar date wins; a regex match with an invalid date raises `ValueError`
inside strptime, which the loop catches and skips. -/
def tryFormats (cs : List Char) : Option PyDate :=
  DATE_FORMAT_MATCHERS.findSome? (fun fmt =>
    match (fmt cs).head? with
    | some (y, m, d) => if isValidDate y m d then some ⟨y, m, d⟩ else none
    | none => none)

/-- Python `str.title()` (ASCII model): uppercase every letter that follows
a non-letter, lowercase every other letter. -/
def pyTitleAux : Bool → List Char → List Char
  | _, [] => []
  | startOfWord, c :: rest =>
    if c.isAlpha then
      (if startOfWord then c.toUpper else c.toLower) :: pyTitleAux false rest
    else c :: pyTitleAux true rest

def pyTitle (cs : List Char) : List Char := pyTitleAux true cs

/-- The trailing `re.fullmatch(r"(\d{1,2})/(\d{1,2})/(\d{4})", cleaned)`
pattern, returning `(year, month, day)`. -/
def looseSlashMatch (cs : List Char) : Option (Nat × Nat × Nat) :=
  let d1 := cs.takeWhile Char.isDigit
  let r1 := cs.dropWhile Char.isDigit
  if d1.length = 0 ∨ 3 ≤ d1.length then none
  else
    match r1 with
    | '/' :: r2 =>
      let d2 := r2.takeWhile Char.isDigit
      let r3 := r2.dropWhile Char.isDigit
      if d2.length = 0 ∨ 3 ≤ d2.length then none
      else
        match r3 with
        | '/' :: r4 =>
          if r4.length = 4 ∧ r4.all Char.isDigit then
            some (natOfDigits r4, natOfDigits d1, natOfDigits d2)
          else none
        | _ => none
    | _ => none

/-- `parse_date_string`: `Except.error` models an uncaught `ValueError`
escaping the function (the bare four-digit branch constructs
`datetime(int(cleaned), 1, 1)` outside any try block, which raises when
the year is zero). -/
def parse_date_string (value : Option String) : Except Unit (Option PyDate) :=
  match value with
  | none => .ok none
  | some v =>
    if v = "" then .ok none
    else
      let cleaned := pyStrip v
      if cleaned = "" then .ok none
      else
        let cs0 := cleaned.data.map (fun c => if c = ',' then ' ' else c)
        let cs1 := collapseRuns isPySpace ' ' cs0
        let cs := if cs1.any Char.isAlpha then pyTitle cs1 else cs1
        match tryFormats cs with
        | some dt => .ok (some dt)
        | none =>
          if cs.length = 4 ∧ cs.all Char.isDigit then
            if natOfDigits cs = 0 then .error ()
            else .ok (some ⟨natOfDigits cs, 1, 1⟩)
          else
            match looseSlashMatch cs with
            | some (y, m, d) =>
              if isValidDate y m d then .ok (some ⟨y, m, d⟩) else .ok none
            | none => .ok none

/-! ## Birth sort keys (`birth_sort_key`) -/

/-- The sort key tuple: `(0, year, month, day, name)` for a parseable birth
date, `(1, name)` otherwise. -/
inductive SortKey where
  | dated (year month day : Nat) (name : String)
  | undated (name : String)
deriving DecidableEq, Repr

/-- `birth_sort_key`; it propagates the `ValueError` that
`parse_date_string` can raise. -/
def birth_sort_key (ind : Individual) : Except Unit SortKey :=
  match parse_date_string ind.birth.date with
  | .error e => .error e
  | .ok (some dt) => .ok (.dated dt.year dt.month dt.day (normalise (display_name ind)))
  | .ok none => .ok (.undated (normalise (display_name ind)))

/-- Embedding of a sort key into a lexicographic product mirroring the
Python tuple comparison: the missing positions of the short tuple
`(1, name)` can never be consulted, because the first components already
differ. -/
def keyTuple (k : SortKey) : Lex (Nat × Lex (Nat × Lex (Nat × Lex (Nat × String)))) :=
  match k with
  | .dated y m d n => toLex (0, toLex (y, toLex (m, toLex (d, n))))
  | .undated n => toLex (1, toLex (0, toLex (0, toLex (0, n))))

/-- Python tuple `<=` on sort keys. -/
def keyLe (a b : SortKey) : Prop := keyTuple a ≤ keyTuple b

/-- Python tuple `<` on sort keys (the comparison used by `sort`). -/
def keyLt (a b : SortKey) : Prop := keyTuple a < keyTuple b

instance (a b : SortKey) : Decidable (keyLe a b) := by
  unfold keyLe
  infer_instance

instance (a b : SortKey) : Decidable (keyLt a b) := by
  unfold keyLt
  infer_instance

theorem keyTuple_inj {a b : SortKey} (h : keyTuple a = keyTuple b) : a = b := by
  cases a <;> cases b <;>
    simp only [keyTuple, toLex_inj, Prod.mk.injEq] at h <;> simp_all

theorem keyLt_dated_undated (y m d : Nat) (n n2 : String) :
    keyLt (.dated y m d n) (.undated n2) := by
  unfold keyLt keyTuple
  rw [Prod.Lex.lt_iff]
  exact Or.inl Nat.zero_lt_one

theorem keyLt_dated_dated (y m d : Nat) (n : String) (y2 m2 d2 : Nat) (n2 : String)
    (h : y < y2 ∨ (y = y2 ∧ (m < m2 ∨ (m = m2 ∧ d < d2)))) :
    keyLt (.dated y m d n) (.dated y2 m2 d2 n2) := by
  unfold keyLt keyTuple
  rw [Prod.Lex.lt_iff]
  refine Or.inr ⟨rfl, ?_⟩
  rw [Prod.Lex.lt_iff]
  rcases h with h | ⟨rfl, h⟩
  · exact Or.inl h
  · refine Or.inr ⟨rfl, ?_⟩
    rw [Prod.Lex.lt_iff]
    rcases h with h | ⟨rfl, h⟩
    · exact Or.inl h
    · refine Or.inr ⟨rfl, ?_⟩
      rw [Prod.Lex.lt_iff]
      exact Or.inl h

/-- C5 (amended): the sort-key comparison is a total order (total,
transitive, antisymmetric on key values); whenever `birth_sort_key`
returns keys, an individual with a parseable birth date sorts strictly
before one whose date does not parse, and between two parseable dates the
earlier (year, month, day) triple sorts strictly first.  The claim is
restricted to individuals on which `birth_sort_key` actually returns a
key: a birth date that cleans to the four-digit string "0000" makes it
raise instead (see the counterexample). -/
theorem claim_C5_sort_key_total_order :
    (∀ a b : SortKey, keyLe a b ∨ keyLe b a) ∧
    (∀ a b c : SortKey, keyLe a b → keyLe b c → keyLe a c) ∧
    (∀ a b : SortKey, keyLe a b → keyLe b a → a = b) ∧
    (∀ (i j : Individual) (dt : PyDate),
        parse_date_string i.birth.date = .ok (some dt) →
        parse_date_string j.birth.date = .ok none →
        ∃ ki kj, birth_sort_key i = .ok ki ∧ birth_sort_key j = .ok kj ∧ keyLt ki kj) ∧
    (∀ (i j : Individual) (dt dt2 : PyDate),
        parse_date_string i.birth.date = .ok (some dt) →
        parse_date_string j.birth.date = .ok (some dt2) →
        (dt.year < dt2.year ∨ (dt.year = dt2.year ∧ (dt.month < dt2.month ∨
            (dt.month = dt2.month ∧ dt.day < dt2.day)))) →
        ∃ ki kj, birth_sort_key i = .ok ki ∧ birth_sort_key j = .ok kj ∧ keyLt ki kj) := by
  refine ⟨?_, ?_, ?_, ?_, ?_⟩
  · intro a b
    exact le_total (keyTuple a) (keyTuple b)
  · intro a b c hab hbc
    exact le_trans (α := Lex (Nat × Lex (Nat × Lex (Nat × Lex (Nat × String))))) hab hbc
  · intro a b hab hba
    exact keyTuple_inj (le_antisymm hab hba)
  · intro i j dt hi hj
    exact ⟨.dated dt.year dt.month dt.day (normalise (display_name i)),
      .undated (normalise (display_name j)),
      by unfold birth_sort_key; rw [hi],
      by unfold birth_sort_key; rw [hj],
      keyLt_dated_undated _ _ _ _ _⟩
  · intro i j dt dt2 hi hj hlex
    exact ⟨.dated dt.year dt.month dt.day (normalise (display_name i)),
      .dated dt2.year dt2.month dt2.day (normalise (display_name j)),
      by unfold birth_sort_key; rw [hi],
      by unfold birth_sort_key; rw [hj],
      keyLt_dated_dated _ _ _ _ _ _ _ _ hlex⟩

/-- Witness for C5: transitivity, antisymmetry, and both sorting clauses
applied at concrete keys and individuals. -/
theorem claim_C5_sort_key_total_order_witness :
    keyLe (SortKey.dated 1 1 1 "a") (SortKey.undated "b") ∧
    SortKey.undated "a" = SortKey.undated "a" ∧
    (∃ ki kj,
      birth_sort_key { id := "@I1@", name := "A", birth := { date := some "1930" } } =
          .ok ki ∧
        birth_sort_key { id := "@I2@", name := "B", birth := { date := some "garbage" } } =
          .ok kj ∧
        keyLt ki kj) ∧
    (∃ ki kj,
      birth_sort_key { id := "@I1@", name := "A", birth := { date := some "1930" } } =
          .ok ki ∧
        birth_sort_key
            { id := "@I2@", name := "B", birth := { date := some "03/04/1930" } } =
          .ok kj ∧
        keyLt ki kj) :=
  ⟨claim_C5_sort_key_total_order.2.1 (.dated 1 1 1 "a") (.dated 2 1 1 "c") (.undated "b")
      (by decide) (by decide),
    claim_C5_sort_key_total_order.2.2.1 (.undated "a") (.undated "a")
      (le_refl (keyTuple (.undated "a"))) (le_refl (keyTuple (.undated "a"))),
    claim_C5_sort_key_total_order.2.2.2.1 _ _ ⟨1930, 1, 1⟩ rfl rfl,
    claim_C5_sort_key_total_order.2.2.2.2 _ _ ⟨1930, 1, 1⟩ ⟨1930, 3, 4⟩ rfl rfl
      (by decide)⟩

/-- Counterexample for C5 as stated: an individual whose birth date is the
string "0000" has no sort key at all, because `parse_date_string` hits
`datetime(0, 1, 1)` outside any try block and the `ValueError` escapes, so
the comparison is not defined on all individuals. -/
theorem claim_C5_counterexample :
    birth_sort_key { id := "@I1@", birth := { date := some "0000" } } =
      Except.error () := rfl

/-- C7: the date value "1930" parses to January 1, 1930; "03/04/1930"
parses through the numeric month/day/year pattern to March 4, 1930;
"garbage" yields no parseable result, and the sort key of any individual
with an unparseable birth date comes strictly after that of any individual
with a parseable one. -/
theorem claim_C7_concrete_dates :
    parse_date_string (some "1930") = .ok (some ⟨1930, 1, 1⟩) ∧
    parse_date_string (some "03/04/1930") = .ok (some ⟨1930, 3, 4⟩) ∧
    parse_date_string (some "garbage") = .ok none ∧
    (∀ (i g : Individual) (dt : PyDate) (ki kg : SortKey),
        parse_date_string i.birth.date = .ok (some dt) →
        g.birth.date = some "garbage" →
        birth_sort_key i = .ok ki → birth_sort_key g = .ok kg →
        keyLt ki kg) := by
  refine ⟨rfl, rfl, rfl, ?_⟩
  intro i g dt ki kg hi hg hki hkg
  have hgp : parse_date_string g.birth.date = .ok none := by
    rw [hg]
    rfl
  have hki2 : ki = .dated dt.year dt.month dt.day (normalise (display_name i)) := by
    unfold birth_sort_key at hki
    rw [hi] at hki
    exact (Except.ok.injEq _ _ ▸ hki).symm
  have hkg2 : kg = .undated (normalise (display_name g)) := by
    unfold birth_sort_key at hkg
    rw [hgp] at hkg
    exact (Except.ok.injEq _ _ ▸ hkg).symm
  rw [hki2, hkg2]
  exact keyLt_dated_undated _ _ _ _ _

/-- Witness for C7 at two concrete individuals. -/
theorem claim_C7_concrete_dates_witness :
    keyLt (SortKey.dated 1930 1 1 "a") (SortKey.undated "b") :=
  claim_C7_concrete_dates.2.2.2
    { id := "@I1@", name := "A", birth := { date := some "1930" } }
    { id := "@I2@", name := "B", birth := { date := some "garbage" } }
    ⟨1930, 1, 1⟩ (.dated 1930 1 1 "a") (.undated "b") rfl rfl rfl rfl

/-! ## Descendant collection (`collect_descendants`) -/

def famChildIds (families : Dict Family) : Finset String :=
  (families.flatMap (fun p => p.2.children)).toFinset

theorem mem_famChildIds {families : Dict Family} {famId : String} {fam : Family}
    (h : dictGet families famId = some fam) {c : String} (hc : c ∈ fam.children) :
    c ∈ famChildIds families := by
  unfold famChildIds
  simp only [List.mem_toFinset, List.mem_flatMap]
  unfold dictGet at h
  rcases Option.map_eq_some'.mp h with ⟨p, hp, hp2⟩
  exact ⟨p, List.mem_of_find?_eq_some hp, hp2 ▸ hc⟩

theorem collect_measure_lt (families : Dict Family) (descendants : Finset String)
    (current : String) (tp rest2 : List String)
    (hmem : current ∈ tp) (hcur : current ∉ descendants)
    (hsub : ∀ x ∈ rest2, x ∈ famChildIds families ∨ x ∈ tp) :
    ((famChildIds families ∪ rest2.toFinset) \ insert current descendants).card <
      ((famChildIds families ∪ tp.toFinset) \ descendants).card := by
  apply Finset.card_lt_card
  rw [Finset.ssubset_iff_of_subset]
  · refine ⟨current, ?_, ?_⟩
    · simp [hmem, hcur]
    · simp
  · intro x hx
    simp only [Finset.mem_sdiff, Finset.mem_union, List.mem_toFinset, Finset.mem_insert,
      not_or] at hx ⊢
    refine ⟨?_, hx.2.2⟩
    rcases hx.1 with h | h
    · exact Or.inl h
    · rcases hsub x h with h2 | h2
      · exact Or.inl h2
      · exact Or.inr h2

theorem collect_measure_le (families : Dict Family) (descendants : Finset String)
    (tp rest2 : List String) (hsub : ∀ x ∈ rest2, x ∈ tp) :
    ((famChildIds families ∪ rest2.toFinset) \ descendants).card ≤
      ((famChildIds families ∪ tp.toFinset) \ descendants).card := by
  apply Finset.card_le_card
  intro x hx
  simp only [Finset.mem_sdiff, Finset.mem_union, List.mem_toFinset] at hx ⊢
  refine ⟨?_, hx.2⟩
  rcases hx.1 with h | h
  · exact Or.inl h
  · exact Or.inr (hsub x h)

def collectAux (individuals : Dict Individual) (families : Dict Family)
    (descendants : Finset String) (toProcess : List String) : Finset String :=
  match toProcess with
  | [] => descendants
  | t :: ts =>
    let current := (t :: ts).getLast (List.cons_ne_nil t ts)
    let rest := (t :: ts).dropLast
    if current ∈ descendants then collectAux individuals families descendants rest
    else
      let descendants2 := insert current descendants
      match dictGet individuals current with
      | none => collectAux individuals families descendants2 rest
      | some person =>
        let newKids := person.fams.flatMap (fun fam_id =>
          match dictGet families fam_id with
          | none => []
          | some fam => fam.children.filter (fun child => child ∉ descendants2))
        collectAux individuals families descendants2 (rest ++ newKids)
termination_by (((famChildIds families ∪ toProcess.toFinset) \ descendants).card,
  toProcess.length)
decreasing_by
  · have hle := collect_measure_le families descendants (t :: ts) ((t :: ts).dropLast)
      (fun x hx => (List.dropLast_sublist (t :: ts)).subset hx)
    rcases Nat.lt_or_ge (((famChildIds families ∪ ((t :: ts).dropLast).toFinset) \
        descendants).card)
        (((famChildIds families ∪ (t :: ts).toFinset) \ descendants).card) with h | h
    · exact Prod.Lex.left _ _ h
    · have heq : ((famChildIds families ∪ ((t :: ts).dropLast).toFinset) \ descendants).card
          = ((famChildIds families ∪ (t :: ts).toFinset) \ descendants).card :=
        Nat.le_antisymm hle h
      rw [heq]
      exact Prod.Lex.right _ (by
        simp [List.length_dropLast])
  · apply Prod.Lex.left
    apply collect_measure_lt
    · exact List.getLast_mem _
    · assumption
    · intro x hx
      exact Or.inr ((List.dropLast_sublist (t :: ts)).subset hx)
  · apply Prod.Lex.left
    apply collect_measure_lt
    · exact List.getLast_mem _
    · assumption
    · intro x hx
      rcases List.mem_append.mp hx with h | h
      · exact Or.inr ((List.dropLast_sublist (t :: ts)).subset h)
      · left
        rcases List.mem_flatMap.mp h with ⟨fid, _, hx2⟩
        rcases hg : dictGet families fid with _ | fam
        · rw [hg] at hx2
          simp at hx2
        · rw [hg] at hx2
          exact mem_famChildIds hg (List.mem_of_mem_filter hx2)


def newKids (families : Dict Family) (descendants2 : Finset String)
    (person : Individual) : List String :=
  person.fams.flatMap (fun fam_id =>
    match dictGet families fam_id with
    | none => []
    | some fam => fam.children.filter (fun child => child ∉ descendants2))

theorem collectAux_nil (i : Dict Individual) (f : Dict Family) (d : Finset String) :
    collectAux i f d [] = d := by
  rw [collectAux.eq_def]

theorem collectAux_eq_skip (i : Dict Individual) (f : Dict Family) (d : Finset String)
    (t : String) (ts : List String)
    (h : (t :: ts).getLast (List.cons_ne_nil t ts) ∈ d) :
    collectAux i f d (t :: ts) = collectAux i f d ((t :: ts).dropLast) := by
  rw [collectAux.eq_def]
  simp only [h, if_pos]

theorem collectAux_eq_dangling (i : Dict Individual) (f : Dict Family) (d : Finset String)
    (t : String) (ts : List String)
    (h : (t :: ts).getLast (List.cons_ne_nil t ts) ∉ d)
    (hn : dictGet i ((t :: ts).getLast (List.cons_ne_nil t ts)) = none) :
    collectAux i f d (t :: ts) =
      collectAux i f (insert ((t :: ts).getLast (List.cons_ne_nil t ts)) d)
        ((t :: ts).dropLast) := by
  rw [collectAux.eq_def]
  simp only [h, hn, if_neg]
  simp

theorem collectAux_eq_person (i : Dict Individual) (f : Dict Family) (d : Finset String)
    (t : String) (ts : List String) (person : Individual)
    (h : (t :: ts).getLast (List.cons_ne_nil t ts) ∉ d)
    (hp : dictGet i ((t :: ts).getLast (List.cons_ne_nil t ts)) = some person) :
    collectAux i f d (t :: ts) =
      collectAux i f (insert ((t :: ts).getLast (List.cons_ne_nil t ts)) d)
        ((t :: ts).dropLast ++
          newKids f (insert ((t :: ts).getLast (List.cons_ne_nil t ts)) d) person) := by
  rw [collectAux.eq_def]
  simp only [h, hp, if_neg]
  simp [newKids]


theorem mem_dropLast_or_getLast {α : Type} {l : List α} {x : α} (hne : l ≠ [])
    (h : x ∈ l) : x ∈ l.dropLast ∨ x = l.getLast hne := by
  conv at h => rw [← List.dropLast_append_getLast hne]
  rcases List.mem_append.mp h with h1 | h1
  · exact Or.inl h1
  · exact Or.inr (List.mem_singleton.mp h1)

theorem subset_collectAux (i : Dict Individual) (f : Dict Family) :
    ∀ (d : Finset String) (tp : List String), d ⊆ collectAux i f d tp := by
  intro d0 tp0
  induction d0, tp0 using collectAux.induct i f with
  | case1 d =>
    rw [collectAux_nil]
  | case2 d t ts current rest hmem =>
    rename_i ih
    intro x hx
    rw [collectAux_eq_skip i f d t ts hmem]
    exact ih hx
  | case3 d t ts current rest hmem d2 hnone =>
    rename_i ih
    intro x hx
    rw [collectAux_eq_dangling i f d t ts hmem hnone]
    exact ih (Finset.mem_insert_of_mem hx)
  | case4 d t ts current rest hmem d2 person hperson kids =>
    rename_i ih
    intro x hx
    rw [collectAux_eq_person i f d t ts person hmem hperson]
    exact ih (Finset.mem_insert_of_mem hx)

theorem mem_collectAux_of_mem_toProcess (i : Dict Individual) (f : Dict Family) :
    ∀ (d : Finset String) (tp : List String), ∀ x ∈ tp, x ∈ collectAux i f d tp := by
  intro d0 tp0
  induction d0, tp0 using collectAux.induct i f with
  | case1 d =>
    intro x hx
    cases hx
  | case2 d t ts current rest hmem =>
    rename_i ih
    intro x hx
    rw [collectAux_eq_skip i f d t ts hmem]
    rcases mem_dropLast_or_getLast (List.cons_ne_nil t ts) hx with h1 | h1
    · exact ih x h1
    · rw [h1]
      exact subset_collectAux i f d _ hmem
  | case3 d t ts current rest hmem d2 hnone =>
    rename_i ih
    intro x hx
    rw [collectAux_eq_dangling i f d t ts hmem hnone]
    rcases mem_dropLast_or_getLast (List.cons_ne_nil t ts) hx with h1 | h1
    · exact ih x h1
    · rw [h1]
      exact subset_collectAux i f _ _ (Finset.mem_insert_self _ _)
  | case4 d t ts current rest hmem d2 person hperson kids =>
    rename_i ih
    intro x hx
    rw [collectAux_eq_person i f d t ts person hmem hperson]
    rcases mem_dropLast_or_getLast (List.cons_ne_nil t ts) hx with h1 | h1
    · exact ih x (List.mem_append_left _ h1)
    · rw [h1]
      exact subset_collectAux i f _ _ (Finset.mem_insert_self _ _)

theorem collectAux_sound (i : Dict Individual) (f : Dict Family) (R : String → Prop)
    (hstep : ∀ (p : String) (person : Individual) (famId : String) (fam : Family)
        (c : String), R p → dictGet i p = some person → famId ∈ person.fams →
        dictGet f famId = some fam → c ∈ fam.children → R c) :
    ∀ (d : Finset String) (tp : List String), (∀ x ∈ d, R x) → (∀ x ∈ tp, R x) →
      ∀ x ∈ collectAux i f d tp, R x := by
  intro d0 tp0
  induction d0, tp0 using collectAux.induct i f with
  | case1 d =>
    intro hd ht x hx
    rw [collectAux_nil] at hx
    exact hd x hx
  | case2 d t ts current rest hmem =>
    rename_i ih
    intro hd ht x hx
    rw [collectAux_eq_skip i f d t ts hmem] at hx
    exact ih hd (fun y hy => ht y ((List.dropLast_sublist (t :: ts)).subset hy)) x hx
  | case3 d t ts current rest hmem d2 hnone =>
    rename_i ih
    intro hd ht x hx
    rw [collectAux_eq_dangling i f d t ts hmem hnone] at hx
    refine ih ?_ (fun y hy => ht y ((List.dropLast_sublist (t :: ts)).subset hy)) x hx
    intro y hy
    rcases Finset.mem_insert.mp hy with h1 | h1
    · rw [h1]
      exact ht _ (List.getLast_mem _)
    · exact hd y h1
  | case4 d t ts current rest hmem d2 person hperson kids =>
    rename_i ih
    intro hd ht x hx
    rw [collectAux_eq_person i f d t ts person hmem hperson] at hx
    refine ih ?_ ?_ x hx
    · intro y hy
      rcases Finset.mem_insert.mp hy with h1 | h1
      · rw [h1]
        exact ht _ (List.getLast_mem _)
      · exact hd y h1
    · intro y hy
      rcases List.mem_append.mp hy with h1 | h1
      · exact ht y ((List.dropLast_sublist (t :: ts)).subset h1)
      · rcases List.mem_flatMap.mp h1 with ⟨fid, hfid, hy2⟩
        rcases hg : dictGet f fid with _ | fam
        · rw [hg] at hy2
          simp at hy2
        · rw [hg] at hy2
          exact hstep _ person fid fam y (ht _ (List.getLast_mem _)) hperson hfid hg
            (List.mem_of_mem_filter hy2)

theorem collectAux_closed (i : Dict Individual) (f : Dict Family) :
    ∀ (d : Finset String) (tp : List String),
      ∀ x ∈ collectAux i f d tp, x ∉ d →
      ∀ (person : Individual) (famId : String) (fam : Family) (c : String),
        dictGet i x = some person → famId ∈ person.fams → dictGet f famId = some fam →
        c ∈ fam.children → c ∈ collectAux i f d tp := by
  intro d0 tp0
  induction d0, tp0 using collectAux.induct i f with
  | case1 d =>
    intro x hx hxd
    rw [collectAux_nil] at hx
    exact absurd hx hxd
  | case2 d t ts current rest hmem =>
    rename_i ih
    intro x hx hxd person famId fam c hperson hfam hgf hc
    rw [collectAux_eq_skip i f d t ts hmem] at hx ⊢
    exact ih x hx hxd person famId fam c hperson hfam hgf hc
  | case3 d t ts current rest hmem d2 hnone =>
    rename_i ih
    intro x hx hxd person famId fam c hperson hfam hgf hc
    rw [collectAux_eq_dangling i f d t ts hmem hnone] at hx ⊢
    by_cases hxc : x = (t :: ts).getLast (List.cons_ne_nil t ts)
    · rw [hxc] at hperson
      rw [hnone] at hperson
      cases hperson
    · have hxd2 : x ∉ insert ((t :: ts).getLast (List.cons_ne_nil t ts)) d := by
        simp [hxc, hxd]
      exact ih x hx hxd2 person famId fam c hperson hfam hgf hc
  | case4 d t ts current rest hmem d2 person0 hperson0 kids =>
    rename_i ih
    intro x hx hxd person famId fam c hperson hfam hgf hc
    rw [collectAux_eq_person i f d t ts person0 hmem hperson0] at hx ⊢
    by_cases hxc : x = (t :: ts).getLast (List.cons_ne_nil t ts)
    · rw [hxc] at hperson
      rw [hperson0] at hperson
      injection hperson with hpe
      subst hpe
      by_cases hcd : c ∈ insert ((t :: ts).getLast (List.cons_ne_nil t ts)) d
      · exact subset_collectAux i f _ _ hcd
      · apply mem_collectAux_of_mem_toProcess
        apply List.mem_append_right
        unfold newKids
        apply List.mem_flatMap.mpr
        refine ⟨famId, hfam, ?_⟩
        rw [hgf]
        exact List.mem_filter.mpr ⟨hc, by simpa using hcd⟩
    · have hxd2 : x ∉ insert ((t :: ts).getLast (List.cons_ne_nil t ts)) d := by
        simp [hxc, hxd]
      exact ih x hx hxd2 person famId fam c hperson hfam hgf hc

/-- `collect_descendants`. -/
def collect_descendants (individuals : Dict Individual) (families : Dict Family)
    (root_family : Family) : Finset String :=
  collectAux individuals families ∅ root_family.children

inductive Reachable (individuals : Dict Individual) (families : Dict Family)
    (root_family : Family) : String → Prop
  | base {c : String} : c ∈ root_family.children →
      Reachable individuals families root_family c
  | step {p : String} {person : Individual} {famId : String} {fam : Family} {c : String} :
      Reachable individuals families root_family p →
      dictGet individuals p = some person → famId ∈ person.fams →
      dictGet families famId = some fam → c ∈ fam.children →
      Reachable individuals families root_family c

theorem mem_collect_descendants_iff (i : Dict Individual) (f : Dict Family)
    (root : Family) (x : String) :
    x ∈ collect_descendants i f root ↔ Reachable i f root x := by
  constructor
  · intro hx
    refine collectAux_sound i f (Reachable i f root) ?_ ∅ root.children ?_ ?_ x hx
    · intro p person famId fam c hp hperson hfam hgf hc
      exact Reachable.step hp hperson hfam hgf hc
    · intro y hy
      cases hy
    · intro y hy
      exact Reachable.base hy
  · intro h
    induction h with
    | base hc => exact mem_collectAux_of_mem_toProcess i f ∅ root.children _ hc
    | step hp hperson hfam hgf hc ih =>
      exact collectAux_closed i f ∅ root.children _ ih (by simp) _ _ _ _ hperson hfam
        hgf hc

/-! ## Theorems for claims C3, C4 and C10 (descendant collection) -/

/-- C3 (amended): `collect_descendants` is deterministic (two runs on the
same inputs agree), it returns exactly the set of identifiers transitively
reachable as children from the root family, it returns the empty set when
the root family has no children, and it excludes the root husband and wife
identifiers whenever those are not themselves reachable as children (the
unamended exclusion fails when a spouse identifier occurs in a traversed
children list, see the counterexample). -/
theorem claim_C3_descendant_set (i : Dict Individual) (f : Dict Family) (root : Family) :
    collect_descendants i f root = collect_descendants i f root ∧
    (∀ x, x ∈ collect_descendants i f root ↔ Reachable i f root x) ∧
    (root.children = [] → collect_descendants i f root = ∅) ∧
    (∀ h, root.husband = some h → ¬Reachable i f root h →
        h ∉ collect_descendants i f root) ∧
    (∀ w, root.wife = some w → ¬Reachable i f root w →
        w ∉ collect_descendants i f root) := by
  refine ⟨rfl, mem_collect_descendants_iff i f root, ?_, ?_, ?_⟩
  · intro hnil
    unfold collect_descendants
    rw [hnil, collectAux_nil]
  · intro h hh hnr hmem
    exact hnr ((mem_collect_descendants_iff i f root h).mp hmem)
  · intro w hw hnr hmem
    exact hnr ((mem_collect_descendants_iff i f root w).mp hmem)

/-- Witness for C3: the empty-children clause and the spouse-exclusion
clause at concrete inputs (a childless root family, whose husband is not
reachable). -/
theorem claim_C3_descendant_set_witness :
    collect_descendants [] [] { id := "@F1@", husband := some "@H@" } = ∅ ∧
    "@H@" ∉ collect_descendants [] [] { id := "@F1@", husband := some "@H@" } := by
  have hnr : ¬Reachable [] ([] : Dict Family) { id := "@F1@", husband := some "@H@" } "@H@" := by
    intro h
    cases h with
    | base hc => cases hc
    | step hp hperson hfam hgf hc => simp [dictGet] at hperson
  exact ⟨(claim_C3_descendant_set [] [] { id := "@F1@", husband := some "@H@" }).2.2.1 rfl,
    (claim_C3_descendant_set [] [] { id := "@F1@", husband := some "@H@" }).2.2.2.1
      "@H@" rfl hnr⟩

/-- Counterexample for C3 as stated: when the root husband identifier is
itself listed among the root children, the returned set does contain the
husband identifier. -/
theorem claim_C3_counterexample :
    ({ id := "@F1@", husband := some "@I1@", children := ["@I1@"] } : Family).husband =
      some "@I1@" ∧
    "@I1@" ∈ collect_descendants [] []
      { id := "@F1@", husband := some "@I1@", children := ["@I1@"] } :=
  ⟨rfl,
    (mem_collect_descendants_iff [] []
      { id := "@F1@", husband := some "@I1@", children := ["@I1@"] } "@I1@").mpr
      (Reachable.base (List.mem_singleton.mpr rfl))⟩

/-- C4: `collect_descendants` is a total function (its recursion is
well-founded on finite inputs); every element it returns lies in the
finite set of root children and family children, and on a concrete cyclic
input (an individual who is a child of their own family) it terminates
with just that individual. -/
theorem claim_C4_terminates :
    (∀ (i : Dict Individual) (f : Dict Family) (root : Family),
        ∀ x ∈ collect_descendants i f root, x ∈ root.children ∨ x ∈ famChildIds f) ∧
    collect_descendants [("@I1@", { id := "@I1@", fams := ["@F1@"] })]
        [("@F1@", { id := "@F1@", children := ["@I1@"] })]
        { id := "@F0@", children := ["@I1@"] } = {"@I1@"} := by
  constructor
  · intro i f root x hx
    have hr := (mem_collect_descendants_iff i f root x).mp hx
    induction hr with
    | base hc => exact Or.inl hc
    | step hp hperson hfam hgf hc ih => exact Or.inr (mem_famChildIds hgf hc)
  · apply Finset.ext
    intro y
    rw [mem_collect_descendants_iff, Finset.mem_singleton]
    constructor
    · intro h
      induction h with
      | base hc => simpa using hc
      | step hp hperson hfam hgf hc ih =>
        subst ih
        simp only [dictGet, List.find?] at hperson
        simp only [show (("@I1@", ({ id := "@I1@", fams := ["@F1@"] } : Individual)).1 ==
          "@I1@") = true from rfl] at hperson
        injection hperson with hpe
        subst hpe
        simp only [List.mem_singleton] at hfam
        subst hfam
        simp only [dictGet, List.find?] at hgf
        simp only [show (("@F1@", ({ id := "@F1@", children := ["@I1@"] } : Family)).1 ==
          "@F1@") = true from rfl] at hgf
        injection hgf with hge
        subst hge
        simpa using hc
    · intro h
      subst h
      exact Reachable.base (by simp)

/-- Witness for C4: the bound applied to the cyclic input. -/
theorem claim_C4_terminates_witness :
    "@I1@" ∈ ({ id := "@F0@", children := ["@I1@"] } : Family).children ∨
      "@I1@" ∈ famChildIds [("@F1@", { id := "@F1@", children := ["@I1@"] })] :=
  claim_C4_terminates.1 [("@I1@", { id := "@I1@", fams := ["@F1@"] })]
    [("@F1@", { id := "@F1@", children := ["@I1@"] })]
    { id := "@F0@", children := ["@I1@"] } "@I1@"
    ((mem_collect_descendants_iff _ _ _ "@I1@").mpr (Reachable.base (by simp)))

/-- C10: every root child identifier is in the returned set even when it
has no entry in the individuals mapping; each returned identifier is a
root child or a child of a family of some returned individual that is
present in the individuals mapping (so a dangling identifier contributes
no further elements); and concretely the returned set can contain an
identifier that is absent from the individuals mapping. -/
theorem claim_C10_dangling_children (i : Dict Individual) (f : Dict Family)
    (root : Family) :
    (∀ c ∈ root.children, c ∈ collect_descendants i f root) ∧
    (∀ x ∈ collect_descendants i f root,
        x ∈ root.children ∨
          ∃ p ∈ collect_descendants i f root, ∃ person, dictGet i p = some person ∧
            ∃ famId ∈ person.fams, ∃ fam, dictGet f famId = some fam ∧
              x ∈ fam.children) ∧
    ("X" ∈ collect_descendants [] [] { id := "@F1@", children := ["X"] } ∧
      dictGet ([] : Dict Individual) "X" = none) := by
  refine ⟨?_, ?_, ?_, rfl⟩
  · intro c hc
    exact (mem_collect_descendants_iff i f root c).mpr (Reachable.base hc)
  · intro x hx
    cases (mem_collect_descendants_iff i f root x).mp hx with
    | base hc => exact Or.inl hc
    | step hp hperson hfam hgf hc =>
      rename_i p person famId fam
      exact Or.inr ⟨p, (mem_collect_descendants_iff i f root p).mpr hp, person, hperson,
        famId, hfam, fam, hgf, hc⟩
  · exact (mem_collect_descendants_iff [] [] { id := "@F1@", children := ["X"] } "X").mpr
      (Reachable.base (by simp))

/-- Witness for C10: a dangling root child at a concrete input. -/
theorem claim_C10_dangling_children_witness :
    "X" ∈ collect_descendants [] [] { id := "@F1@", children := ["X"] } :=
  (claim_C10_dangling_children [] [] { id := "@F1@", children := ["X"] }).1 "X"
    (by simp)

/-! ## Slugs (`slugify`) -/

/-- The name part of a slug: lowercase, collapse non-`[a-z0-9]` runs to
single hyphens, strip hyphens, and fall back to the identifier stripped of
its `@` delimiters when nothing is left. -/
def slugBase (name identifier : String) : String :=
  let base := stripChar '-' ⟨collapseRuns (fun c => !isLowerAlnum c) '-' (pyLower name).data⟩
  if base = "" then stripChar '@' identifier else base

/-- `slugify`: the slug base followed by a hyphen and the identifier
stripped of its `@` delimiters. -/
def slugify (name identifier : String) : String :=
  slugBase name identifier ++ "-" ++ stripChar '@' identifier

theorem collapseRuns_mem (p : Char → Bool) (rep : Char) (l : List Char) :
    ∀ c ∈ collapseRuns p rep l, c = rep ∨ (c ∈ l ∧ p c = false) := by
  induction l with
  | nil => simp [collapseRuns]
  | cons c rest ih =>
    cases rest with
    | nil =>
      intro x hx
      simp only [collapseRuns] at hx
      split at hx
      · simp_all
      · simp_all
    | cons c2 rest2 =>
      intro x hx
      simp only [collapseRuns] at hx
      split at hx
      · rcases ih x hx with h1 | h2
        · exact Or.inl h1
        · exact Or.inr ⟨List.mem_cons_of_mem _ h2.1, h2.2⟩
      · rcases List.mem_cons.mp hx with h1 | h1
        · by_cases hp : p c = true
          · rw [if_pos hp] at h1
            exact Or.inl h1
          · rw [if_neg hp] at h1
            subst h1
            exact Or.inr ⟨List.mem_cons_self _ _, by simp_all⟩
        · rcases ih x h1 with h2 | h3
          · exact Or.inl h2
          · exact Or.inr ⟨List.mem_cons_of_mem _ h3.1, h3.2⟩

theorem mem_stripWhile {p : Char → Bool} {s : String} {c : Char}
    (h : c ∈ (stripWhile p s).data) : c ∈ s.data := by
  unfold stripWhile at h
  rw [List.mem_reverse] at h
  have h2 := (List.dropWhile_sublist _).subset h
  rw [List.mem_reverse] at h2
  exact (List.dropWhile_sublist _).subset h2

theorem isLowerAlnum_isAlphanum {c : Char} (h : isLowerAlnum c = true) :
    c.isAlphanum = true := by
  unfold isLowerAlnum at h
  unfold Char.isAlphanum Char.isAlpha
  rcases (Bool.or_eq_true _ _).mp h with h1 | h1 <;> simp [h1]

/-- C6 (amended): `slugify` returns the slug of the name — lowercased,
non-alphanumeric runs collapsed to single hyphens, leading and trailing
hyphens trimmed, falling back to the `@`-stripped identifier when the name
reduces to nothing — followed by a hyphen and the `@`-stripped identifier;
when the stripped identifier consists of alphanumeric or hyphen characters
the whole slug does too (so it contains no path separator or reserved
characters); and two slugs built from the same display name differ
whenever the `@`-stripped identifiers differ.  The unamended uniqueness
over all distinct raw identifiers fails ("@X@" and "@@X@@" strip to the
same text), as does unconditional character-safety (the raw identifier
text is embedded as is); see the counterexample. -/
theorem claim_C6_slug_shape (name identifier : String) :
    slugify name identifier = slugBase name identifier ++ "-" ++ stripChar '@' identifier ∧
    ((∀ c ∈ (stripChar '@' identifier).data, c.isAlphanum = true ∨ c = '-') →
      ∀ c ∈ (slugify name identifier).data, c.isAlphanum = true ∨ c = '-') ∧
    (∀ identifier2 : String,
        stripChar '@' identifier ≠ stripChar '@' identifier2 →
        slugify name identifier ≠ slugify name identifier2) := by
  refine ⟨rfl, ?_, ?_⟩
  · intro hid c hc
    rw [slugify, String.data_append, String.data_append] at hc
    rcases List.mem_append.mp hc with h1 | h1
    · rcases List.mem_append.mp h1 with h2 | h2
      · unfold slugBase at h2
        by_cases hb :
            stripChar '-' ⟨collapseRuns (fun c => !isLowerAlnum c) '-' (pyLower name).data⟩ =
              ""
        · rw [if_pos hb] at h2
          exact hid c h2
        · rw [if_neg hb] at h2
          have h3 := mem_stripWhile h2
          rcases collapseRuns_mem _ '-' _ c h3 with h4 | h4
          · exact Or.inr h4
          · left
            have h5 := h4.2
            simp only [Bool.not_eq_true _] at h5
            exact isLowerAlnum_isAlphanum (by simpa using h5)
      · right
        simpa using h2
    · exact hid c h1
  · intro identifier2 hne heq
    unfold slugify at heq
    have hdata := congrArg String.data heq
    rw [String.data_append, String.data_append, String.data_append,
      String.data_append] at hdata
    unfold slugBase at hdata
    by_cases hb :
        stripChar '-' ⟨collapseRuns (fun c => !isLowerAlnum c) '-' (pyLower name).data⟩ = ""
    · rw [if_pos hb, if_pos hb] at hdata
      have hlen := congrArg List.length hdata
      rw [List.length_append, List.length_append, List.length_append,
        List.length_append] at hlen
      have hm : ("-" : String).data.length = 1 := rfl
      have hlen2 : (stripChar '@' identifier).data.length =
          (stripChar '@' identifier2).data.length := by omega
      have h1 := List.append_inj hdata
        (by rw [List.length_append, List.length_append, hlen2])
      exact hne (congrArg String.mk (List.append_inj h1.1 hlen2).1)
    · rw [if_neg hb, if_neg hb] at hdata
      have h2 := (List.append_inj hdata rfl).2
      exact hne (congrArg String.mk h2)

/-- Witness for C6: character-safety and injectivity applied at concrete
inputs. -/
theorem claim_C6_slug_shape_witness :
    (∀ c ∈ (slugify "John /Handley/" "@I1@").data, c.isAlphanum = true ∨ c = '-') ∧
    slugify "John" "@I1@" ≠ slugify "John" "@I2@" :=
  ⟨(claim_C6_slug_shape "John /Handley/" "@I1@").2.1 (by decide),
    (claim_C6_slug_shape "John" "@I1@").2.2 "@I2@" (by decide)⟩

/-- Counterexample for C6 as stated: the distinct identifiers "@X@" and
"@@X@@" strip to the same text and give identical slugs for identical
display names, and an identifier containing a path separator puts that
separator into the slug. -/
theorem claim_C6_counterexample :
    slugify "John" "@X@" = slugify "John" "@@X@@" ∧ "@X@" ≠ "@@X@@" ∧
      '/' ∈ (slugify "x" "@a/b@").data := by
  refine ⟨?_, by decide, by decide⟩
  decide

/-! ## Name keys (`extract_name_key` and `NAME_SUFFIXES`) -/

def NAME_SUFFIXES : List String := ["jr", "sr", "ii", "iii", "iv", "v"]

/-- The maximal `[A-Za-z]` runs of a character list, accumulator form: the
nonempty tokens of `re.split(r"[^A-Za-z]+", name)`. -/
def alphaRunsAux : List Char → List Char → List (List Char)
  | acc, [] => if acc = [] then [] else [acc.reverse]
  | acc, c :: rest =>
    if c.isAlpha = true then alphaRunsAux (c :: acc) rest
    else (if acc = [] then [] else [acc.reverse]) ++ alphaRunsAux [] rest

/-- The alphabetic tokens of a name. -/
def nameTokens (name : String) : List String :=
  (alphaRunsAux [] name.data).map (fun cs => (⟨cs⟩ : String))

/-- The `for token in reversed(tokens[1:])` walk: the first lowered token
that is not a name suffix, scanning the given list from the front. -/
def findNonSuffix : List String → Option String
  | [] => none
  | tok :: rest =>
    if pyLower tok ∈ NAME_SUFFIXES then findNonSuffix rest else some (pyLower tok)

/-- The key built from a token list: lowered first token, a space, and the
lowered last non-suffix token (falling back to the lowered last token). -/
def keyFromTokens : List String → Option String
  | [] => none
  | [_] => none
  | t0 :: t1 :: rest =>
    some (pyLower t0 ++ " " ++
      (match findNonSuffix (t1 :: rest).reverse with
       | some l => l
       | none => pyLower ((t1 :: rest).getLast (List.cons_ne_nil t1 rest))))

/-- `extract_name_key`. -/
def extract_name_key (name : String) : Option String :=
  keyFromTokens (nameTokens name)

/-! ### Character-level lemmas about ASCII lowercasing -/

theorem toNat_ofNat_valid {n : Nat} (h : n.isValidChar) : (Char.ofNat n).toNat = n := by
  rw [Char.ofNat, dif_pos h]
  rfl

theorem toLower_def (c : Char) :
    Char.toLower c = if c.toNat ≥ 65 ∧ c.toNat ≤ 90 then Char.ofNat (c.toNat + 32) else c :=
  rfl

theorem toNat_toLower (c : Char) :
    (Char.toLower c).toNat =
      if c.toNat ≥ 65 ∧ c.toNat ≤ 90 then c.toNat + 32 else c.toNat := by
  rw [toLower_def]
  split
  · next h => exact toNat_ofNat_valid (Or.inl (by omega))
  · rfl

theorem isAlpha_iff_toNat (c : Char) :
    c.isAlpha = true ↔ (65 ≤ c.toNat ∧ c.toNat ≤ 90) ∨ (97 ≤ c.toNat ∧ c.toNat ≤ 122) := by
  simp only [Char.isAlpha, Char.isUpper, Char.isLower, UInt32.le_def, BitVec.le_def,
    Char.toNat, Bool.or_eq_true, Bool.and_eq_true, decide_eq_true_eq]
  rfl

theorem isAlpha_toLower {c : Char} (h : c.isAlpha = true) :
    (Char.toLower c).isAlpha = true := by
  rw [isAlpha_iff_toNat] at h ⊢
  rw [toNat_toLower]
  split
  · omega
  · omega

theorem toLower_toLower (c : Char) : (Char.toLower c).toLower = Char.toLower c := by
  rw [toLower_def (Char.toLower c), toNat_toLower c]
  by_cases h : c.toNat ≥ 65 ∧ c.toNat ≤ 90
  · rw [if_pos h, if_neg (by omega)]
  · rw [if_neg h, if_neg h]

theorem pyLower_pyLower (s : String) : pyLower (pyLower s) = pyLower s := by
  unfold pyLower
  apply congrArg String.mk
  show (s.data.map Char.toLower).map Char.toLower = s.data.map Char.toLower
  rw [List.map_map]
  exact List.map_congr_left (fun c _ => toLower_toLower c)

theorem pyLower_data (s : String) : (pyLower s).data = s.data.map Char.toLower := rfl

/-! ### Token-level lemmas -/

theorem alphaRunsAux_nil (acc : List Char) :
    alphaRunsAux acc [] = if acc = [] then [] else [acc.reverse] := rfl

theorem alphaRunsAux_cons (acc : List Char) (c : Char) (rest : List Char) :
    alphaRunsAux acc (c :: rest) =
      if c.isAlpha = true then alphaRunsAux (c :: acc) rest
      else (if acc = [] then [] else [acc.reverse]) ++ alphaRunsAux [] rest := rfl

theorem alphaRunsAux_tokens (l : List Char) :
    ∀ acc, (∀ c ∈ acc, c.isAlpha = true) →
      ∀ run ∈ alphaRunsAux acc l, run ≠ [] ∧ ∀ c ∈ run, c.isAlpha = true := by
  induction l with
  | nil =>
    intro acc hacc run hrun
    rw [alphaRunsAux_nil] at hrun
    split at hrun
    · cases hrun
    · next hne =>
      rw [List.mem_singleton] at hrun
      subst hrun
      exact ⟨by simpa using hne, fun c hc => hacc c (List.mem_reverse.mp hc)⟩
  | cons c rest ih =>
    intro acc hacc run hrun
    rw [alphaRunsAux_cons] at hrun
    split at hrun
    · next hca =>
      refine ih (c :: acc) ?_ run hrun
      intro x hx
      rcases List.mem_cons.mp hx with h | h
      · exact h ▸ hca
      · exact hacc x h
    · rcases List.mem_append.mp hrun with h1 | h1
      · split at h1
        · cases h1
        · next hne =>
          rw [List.mem_singleton] at h1
          subst h1
          exact ⟨by simpa using hne, fun x hx => hacc x (List.mem_reverse.mp hx)⟩
      · exact ih [] (by simp) run h1

theorem alphaRunsAux_alpha_prefix (w : List Char) (hw : ∀ c ∈ w, c.isAlpha = true) :
    ∀ (acc r : List Char), alphaRunsAux acc (w ++ r) = alphaRunsAux (w.reverse ++ acc) r := by
  induction w with
  | nil =>
    intro acc r
    simp
  | cons c cs ih =>
    intro acc r
    rw [List.cons_append, alphaRunsAux_cons,
      if_pos (hw c (List.mem_cons_self c cs)),
      ih (fun x hx => hw x (List.mem_cons_of_mem c hx)) (c :: acc) r]
    rw [List.reverse_cons, List.append_assoc]
    rfl

theorem nameTokens_facts (name : String) :
    ∀ t ∈ nameTokens name, t.data ≠ [] ∧ ∀ c ∈ t.data, c.isAlpha = true := by
  intro t ht
  unfold nameTokens at ht
  rcases List.mem_map.mp ht with ⟨run, hrun, hteq⟩
  have hfact := alphaRunsAux_tokens name.data [] (by simp) run hrun
  subst hteq
  exact hfact

theorem nameTokens_two (a b : String)
    (ha : a.data ≠ []) (hb : b.data ≠ [])
    (haa : ∀ c ∈ a.data, c.isAlpha = true) (hba : ∀ c ∈ b.data, c.isAlpha = true) :
    nameTokens (a ++ " " ++ b) = [a, b] := by
  unfold nameTokens
  have hdata : (a ++ " " ++ b).data = a.data ++ (' ' :: b.data) := by
    rw [String.data_append, String.data_append, List.append_assoc]
    rfl
  rw [hdata, alphaRunsAux_alpha_prefix a.data haa [] (' ' :: b.data), alphaRunsAux_cons,
    if_neg (by decide), List.append_nil]
  have hb2 : alphaRunsAux b.data.reverse [] = [b.data] := by
    rw [alphaRunsAux_nil, if_neg (by simpa using hb)]
    rw [List.reverse_reverse]
  have hb3 : alphaRunsAux [] b.data = [b.data] := by
    have := alphaRunsAux_alpha_prefix b.data hba [] []
    rw [List.append_nil, List.append_nil] at this
    rw [this, hb2]
  rw [hb3, if_neg (by simpa using ha), List.reverse_reverse]
  rfl

/-! ### Key-level lemmas -/

theorem findNonSuffix_congr (l1 : List String) : ∀ l2 : List String,
    l1.map pyLower = l2.map pyLower → findNonSuffix l1 = findNonSuffix l2 := by
  induction l1 with
  | nil =>
    intro l2 h
    cases l2 with
    | nil => rfl
    | cons b bs => cases h
  | cons a as ih =>
    intro l2 h
    cases l2 with
    | nil => cases h
    | cons b bs =>
      simp only [List.map_cons, List.cons.injEq] at h
      unfold findNonSuffix
      rw [h.1, ih bs h.2]

theorem findNonSuffix_some (l : List String) (x : String) (h : findNonSuffix l = some x) :
    ∃ t ∈ l, x = pyLower t := by
  induction l with
  | nil => cases h
  | cons a as ih =>
    unfold findNonSuffix at h
    split at h
    · rcases ih h with ⟨t, ht, hx⟩
      exact ⟨t, List.mem_cons_of_mem _ ht, hx⟩
    · injection h with h2
      exact ⟨a, List.mem_cons_self _ _, h2.symm⟩

theorem extract_name_key_congr (n1 n2 : String)
    (hlen : 2 ≤ (nameTokens n1).length)
    (h : (nameTokens n1).map pyLower = (nameTokens n2).map pyLower) :
    extract_name_key n1 = extract_name_key n2 := by
  unfold extract_name_key
  rcases h1 : nameTokens n1 with _ | ⟨t0, _ | ⟨t1, rest⟩⟩ <;> rw [h1] at hlen h
  · simp at hlen
  · simp at hlen
  · rcases h2 : nameTokens n2 with _ | ⟨s0, _ | ⟨s1, rest2⟩⟩ <;> rw [h2] at h
    · cases h
    · have := congrArg List.length h
      simp at this
    · simp only [List.map_cons, List.cons.injEq] at h
      have hf : findNonSuffix (t1 :: rest).reverse = findNonSuffix (s1 :: rest2).reverse := by
        apply findNonSuffix_congr
        rw [List.map_reverse, List.map_reverse, List.map_cons, List.map_cons, h.2.1,
          h.2.2]
      have hgl : pyLower ((t1 :: rest).getLast (List.cons_ne_nil t1 rest)) =
          pyLower ((s1 :: rest2).getLast (List.cons_ne_nil s1 rest2)) := by
        have hmap : (t1 :: rest).map pyLower = (s1 :: rest2).map pyLower := by
          rw [List.map_cons, List.map_cons, h.2.1, h.2.2]
        have hq := congrArg List.getLast? hmap
        rw [List.getLast?_map, List.getLast?_map,
          List.getLast?_eq_getLast (t1 :: rest) (List.cons_ne_nil t1 rest),
          List.getLast?_eq_getLast (s1 :: rest2) (List.cons_ne_nil s1 rest2)] at hq
        simpa using hq
      show some (pyLower t0 ++ " " ++
          (match findNonSuffix (t1 :: rest).reverse with
           | some l => l
           | none => pyLower ((t1 :: rest).getLast (List.cons_ne_nil t1 rest)))) =
        some (pyLower s0 ++ " " ++
          (match findNonSuffix (s1 :: rest2).reverse with
           | some l => l
           | none => pyLower ((s1 :: rest2).getLast (List.cons_ne_nil s1 rest2))))
      rw [h.1, hf]
      cases hfs : findNonSuffix (s1 :: rest2).reverse with
      | some l => rfl
      | none => rw [hgl]

theorem extract_name_key_idem (name : String) (hlen : 2 ≤ (nameTokens name).length) :
    ∃ k, extract_name_key name = some k ∧ extract_name_key k = some k := by
  rcases hT : nameTokens name with _ | ⟨t0, _ | ⟨t1, rest⟩⟩
  · rw [hT] at hlen
    simp at hlen
  · rw [hT] at hlen
    simp at hlen
  · have hlast : ∃ tok, tok ∈ nameTokens name ∧
        (match findNonSuffix (t1 :: rest).reverse with
         | some l => l
         | none => pyLower ((t1 :: rest).getLast (List.cons_ne_nil t1 rest))) =
          pyLower tok := by
      cases hfs : findNonSuffix (t1 :: rest).reverse with
      | some l =>
        rcases findNonSuffix_some _ _ hfs with ⟨tok, htok, hl⟩
        refine ⟨tok, ?_, hl⟩
        rw [hT]
        exact List.mem_cons_of_mem _ (List.mem_reverse.mp htok)
      | none =>
        refine ⟨(t1 :: rest).getLast (List.cons_ne_nil t1 rest), ?_, rfl⟩
        rw [hT]
        exact List.mem_cons_of_mem _ (List.getLast_mem _)
    obtain ⟨tok, htokmem, hlasteq⟩ := hlast
    have ht0mem : t0 ∈ nameTokens name := by
      rw [hT]
      exact List.mem_cons_self _ _
    have ht0f := nameTokens_facts name t0 ht0mem
    have htokf := nameTokens_facts name tok htokmem
    refine ⟨pyLower t0 ++ " " ++ pyLower tok, ?_, ?_⟩
    · rw [extract_name_key, hT]
      show some (pyLower t0 ++ " " ++ _) = _
      rw [hlasteq]
    · have hadata : (pyLower t0).data ≠ [] := by
        rw [pyLower_data]
        simpa using ht0f.1
      have hbdata : (pyLower tok).data ≠ [] := by
        rw [pyLower_data]
        simpa using htokf.1
      have haalpha : ∀ c ∈ (pyLower t0).data, c.isAlpha = true := by
        rw [pyLower_data]
        intro c hc
        rcases List.mem_map.mp hc with ⟨c0, hc0, hceq⟩
        exact hceq ▸ isAlpha_toLower (ht0f.2 c0 hc0)
      have hbalpha : ∀ c ∈ (pyLower tok).data, c.isAlpha = true := by
        rw [pyLower_data]
        intro c hc
        rcases List.mem_map.mp hc with ⟨c0, hc0, hceq⟩
        exact hceq ▸ isAlpha_toLower (htokf.2 c0 hc0)
      have hbfix : pyLower (pyLower tok) = pyLower tok := pyLower_pyLower tok
      rw [extract_name_key,
        nameTokens_two (pyLower t0) (pyLower tok) hadata hbdata haalpha hbalpha]
      show some (pyLower (pyLower t0) ++ " " ++
          (match findNonSuffix [pyLower tok] with
           | some l => l
           | none => pyLower (([pyLower tok] : List String).getLast
               (List.cons_ne_nil (pyLower tok) [])))) =
        some (pyLower t0 ++ " " ++ pyLower tok)
      rw [pyLower_pyLower]
      by_cases hmem : pyLower tok ∈ NAME_SUFFIXES
      · have h1 : findNonSuffix [pyLower tok] = none := by
          simp [findNonSuffix, hbfix, hmem]
        rw [h1]
        show some (pyLower t0 ++ " " ++ pyLower (pyLower tok)) =
          some (pyLower t0 ++ " " ++ pyLower tok)
        rw [hbfix]
      · have h1 : findNonSuffix [pyLower tok] = some (pyLower tok) := by
          simp [findNonSuffix, hbfix, hmem]
        rw [h1]

/-- C9: for every name with at least two alphabetic tokens,
`extract_name_key` depends only on the lowered token list — so its result
is unchanged under variations of letter case and of internal punctuation
and spacing — and it is idempotent: applied to its own output it returns
that same key. -/
theorem claim_C9_name_key_idempotent :
    (∀ n1 n2 : String, 2 ≤ (nameTokens n1).length →
        (nameTokens n1).map pyLower = (nameTokens n2).map pyLower →
        extract_name_key n1 = extract_name_key n2) ∧
    (∀ name : String, 2 ≤ (nameTokens name).length →
        ∃ k, extract_name_key name = some k ∧ extract_name_key k = some k) :=
  ⟨extract_name_key_congr, extract_name_key_idem⟩

/-- Witness for C9: case and punctuation insensitivity between
"John Smith" and "JOHN-SMITH!", and idempotence on "John Smith Jr". -/
theorem claim_C9_name_key_idempotent_witness :
    extract_name_key "John Smith" = extract_name_key "JOHN-SMITH!" ∧
    ∃ k, extract_name_key "John Smith Jr" = some k ∧ extract_name_key k = some k :=
  ⟨claim_C9_name_key_idempotent.1 "John Smith" "JOHN-SMITH!" (by decide) (by decide),
    claim_C9_name_key_idempotent.2 "John Smith Jr" (by decide)⟩

/-! ## Individual lookup (`find_individual`) -/

/-- Python tuple `<=` on the `(precedence class, display length)` score
pairs produced by the inner `score` function. -/
def pairLe (a b : Nat × Nat) : Prop := a.1 < b.1 ∨ (a.1 = b.1 ∧ a.2 ≤ b.2)

instance (a b : Nat × Nat) : Decidable (pairLe a b) := by
  unfold pairLe
  infer_instance

/-- The inner `score` function of `find_individual`: precedence class 0
for an exact match of the normalised display name, 1 for a prefix match,
2 for a substring match, 3 otherwise, paired with the display length. -/
def scoreOf (nq : String) (ind : Individual) : Nat × Nat :=
  if normalise (display_name ind) = nq then (0, (normalise (display_name ind)).length)
  else if nq.data.isPrefixOf (normalise (display_name ind)).data then
    (1, (normalise (display_name ind)).length)
  else if nq.data <:+: (normalise (display_name ind)).data then
    (2, (normalise (display_name ind)).length)
  else (3, (normalise (display_name ind)).length)

/-- The generator feeding `sorted`: the individuals (in insertion order)
whose normalised display name contains the normalised query. -/
def candidatesOf (inds : Dict Individual) (nq : String) : List Individual :=
  (dictValues inds).filter (fun ind => decide (nq.data <:+: (normalise (display_name ind)).data))

/-- Comparison by score, the `key=score` ordering of `sorted`. -/
def scoreRel (nq : String) : Individual → Individual → Prop :=
  fun a b => pairLe (scoreOf nq a) (scoreOf nq b)

instance (nq : String) (a b : Individual) : Decidable (scoreRel nq a b) := by
  unfold scoreRel
  infer_instance

/-- `matches = sorted(..., key=score)`: any sort ordered by the score key
gives the same observable behaviour here, since the code only reads the
head of the list and the class of the second element. -/
def sortedMatches (inds : Dict Individual) (nq : String) : List Individual :=
  (candidatesOf inds nq).insertionSort (scoreRel nq)

/-- `find_individual`. -/
def find_individual (individuals : Dict Individual) (query : String) :
    Except String Individual :=
  if normalise query = "" then .error "Empty name provided"
  else
    match sortedMatches individuals (normalise query) with
    | [] => .error ("Could not find an individual matching " ++ query ++ ".")
    | best :: rest =>
      match rest with
      | [] => .ok best
      | second :: _ =>
        if (scoreOf (normalise query) second).1 = (scoreOf (normalise query) best).1 then
          .error ("Multiple individuals match " ++ query ++
            ". Please be more specific or use an ID.")
        else .ok best

/-- The precedence class of a candidate. -/
def matchClass (nq : String) (ind : Individual) : Nat := (scoreOf nq ind).1

/-- The best (smallest) precedence class among a candidate list. -/
def minClassOf (nq : String) (C : List Individual) : Nat :=
  (C.map (matchClass nq)).foldr Nat.min 3

instance (nq : String) : IsTotal Individual (scoreRel nq) :=
  ⟨fun a b => by
    unfold scoreRel pairLe
    omega⟩

instance (nq : String) : IsTrans Individual (scoreRel nq) :=
  ⟨fun a b c hab hbc => by
    unfold scoreRel pairLe at hab hbc ⊢
    omega⟩

theorem matchClass_le_three (nq : String) (ind : Individual) : matchClass nq ind ≤ 3 := by
  unfold matchClass scoreOf
  split
  · simp
  · split
    · simp
    · split
      · simp
      · simp

theorem scoreRel_class_le {nq : String} {a b : Individual} (h : scoreRel nq a b) :
    matchClass nq a ≤ matchClass nq b := by
  unfold scoreRel pairLe at h
  unfold matchClass
  omega

theorem foldr_min_le {l : List Nat} {x : Nat} (hx : x ∈ l) : l.foldr Nat.min 3 ≤ x := by
  induction l with
  | nil => cases hx
  | cons a as ih =>
    rcases List.mem_cons.mp hx with h | h
    · subst h
      exact Nat.min_le_left _ _
    · exact le_trans (Nat.min_le_right _ _) (ih h)

theorem foldr_min_mem {l : List Nat} (hne : l ≠ []) (hb : ∀ x ∈ l, x ≤ 3) :
    l.foldr Nat.min 3 ∈ l := by
  induction l with
  | nil => exact absurd rfl hne
  | cons a as ih =>
    cases as with
    | nil =>
      have h3 : a ≤ 3 := hb a (List.mem_cons_self _ _)
      simp [Nat.min_eq_left h3]
    | cons b bs =>
      have hmem := ih (List.cons_ne_nil _ _) (fun x hx => hb x (List.mem_cons_of_mem _ hx))
      show a.min ((b :: bs).foldr Nat.min 3) ∈ a :: b :: bs
      have hconv : a.min ((b :: bs).foldr Nat.min 3) =
          min a ((b :: bs).foldr Nat.min 3) := rfl
      rw [hconv, min_def]
      split
      · exact List.mem_cons_self _ _
      · exact List.mem_cons_of_mem _ hmem

theorem head_class_min (inds : Dict Individual) (nq : String) (b : Individual)
    (rest : List Individual) (hS : sortedMatches inds nq = b :: rest) :
    matchClass nq b = minClassOf nq (candidatesOf inds nq) := by
  have hperm : List.Perm (sortedMatches inds nq) (candidatesOf inds nq) :=
    List.perm_insertionSort _ _
  have hsorted : List.Sorted (scoreRel nq) (sortedMatches inds nq) :=
    List.sorted_insertionSort _ _
  rw [hS] at hperm hsorted
  have hble : ∀ x ∈ candidatesOf inds nq, matchClass nq b ≤ matchClass nq x := by
    intro x hx
    rcases List.mem_cons.mp (hperm.mem_iff.mpr hx) with h | h
    · rw [h]
    · exact scoreRel_class_le (List.rel_of_sorted_cons hsorted x h)
  have hbC : b ∈ candidatesOf inds nq := hperm.mem_iff.mp (List.mem_cons_self _ _)
  apply Nat.le_antisymm
  · have hCne : (candidatesOf inds nq).map (matchClass nq) ≠ [] := by
      intro hnil
      rw [List.map_eq_nil_iff] at hnil
      rw [hnil] at hbC
      cases hbC
    rcases foldr_min_mem hCne
        (by
          intro x hx
          rcases List.mem_map.mp hx with ⟨y, _, hy⟩
          exact hy ▸ matchClass_le_three nq y) with hmem
    rcases List.mem_map.mp hmem with ⟨y, hyC, hy⟩
    calc matchClass nq b ≤ matchClass nq y := hble y hyC
    _ = minClassOf nq (candidatesOf inds nq) := hy
  · exact foldr_min_le (List.mem_map.mpr ⟨b, hbC, rfl⟩)

theorem filter_length_sorted (inds : Dict Individual) (nq : String)
    (p : Individual → Bool) :
    ((candidatesOf inds nq).filter p).length = ((sortedMatches inds nq).filter p).length :=
  (((List.perm_insertionSort (scoreRel nq) (candidatesOf inds nq)).filter p).length_eq).symm

/-- The number of candidates whose precedence class is the best one. -/
def bestCount (inds : Dict Individual) (nq : String) : Nat :=
  (candidatesOf inds nq).countP
    (fun c => decide (matchClass nq c = minClassOf nq (candidatesOf inds nq)))

theorem sortedMatches_perm (inds : Dict Individual) (nq : String) :
    List.Perm (sortedMatches inds nq) (candidatesOf inds nq) :=
  List.perm_insertionSort _ _

theorem sortedMatches_sorted (inds : Dict Individual) (nq : String) :
    List.Sorted (scoreRel nq) (sortedMatches inds nq) :=
  List.sorted_insertionSort _ _

theorem bestCount_eq_sorted (inds : Dict Individual) (nq : String) :
    bestCount inds nq = (sortedMatches inds nq).countP
      (fun c => decide (matchClass nq c = minClassOf nq (candidatesOf inds nq))) :=
  ((sortedMatches_perm inds nq).countP_eq _).symm

theorem head_mem_candidates {inds : Dict Individual} {nq : String} {b : Individual}
    {rest : List Individual} (hS : sortedMatches inds nq = b :: rest) :
    b ∈ candidatesOf inds nq := by
  have hperm := sortedMatches_perm inds nq
  rw [hS] at hperm
  exact hperm.mem_iff.mp (List.mem_cons_self _ _)

theorem candidates_nil_of_sorted_nil {inds : Dict Individual} {nq : String}
    (hS : sortedMatches inds nq = []) : candidatesOf inds nq = [] := by
  have hperm := sortedMatches_perm inds nq
  rw [hS] at hperm
  exact hperm.symm.eq_nil

theorem bestCount_single (inds : Dict Individual) (nq : String) (b : Individual)
    (hS : sortedMatches inds nq = [b]) : bestCount inds nq = 1 := by
  have hmin := head_class_min inds nq b [] hS
  rw [bestCount_eq_sorted, hS]
  simp [hmin]

theorem bestCount_tie (inds : Dict Individual) (nq : String) (b s : Individual)
    (rest : List Individual) (hS : sortedMatches inds nq = b :: s :: rest)
    (htie : matchClass nq s = matchClass nq b) : 2 ≤ bestCount inds nq := by
  have hmin := head_class_min inds nq b (s :: rest) hS
  rw [bestCount_eq_sorted, hS]
  rw [List.countP_cons, List.countP_cons]
  simp only [decide_eq_true_eq, hmin, htie, if_pos]
  omega

theorem bestCount_notie (inds : Dict Individual) (nq : String) (b s : Individual)
    (rest : List Individual) (hS : sortedMatches inds nq = b :: s :: rest)
    (hne : matchClass nq s ≠ matchClass nq b) : bestCount inds nq = 1 := by
  have hmin := head_class_min inds nq b (s :: rest) hS
  have hsorted := sortedMatches_sorted inds nq
  rw [hS] at hsorted
  have hbs : matchClass nq b ≤ matchClass nq s :=
    scoreRel_class_le (List.rel_of_sorted_cons hsorted s (List.mem_cons_self _ _))
  have hlt : matchClass nq b < matchClass nq s := lt_of_le_of_ne hbs (Ne.symm hne)
  have hge : ∀ x ∈ s :: rest, matchClass nq s ≤ matchClass nq x := by
    intro x hx
    rcases List.mem_cons.mp hx with h | h
    · rw [h]
    · exact scoreRel_class_le (List.rel_of_sorted_cons hsorted.of_cons x h)
  rw [bestCount_eq_sorted, hS, List.countP_cons]
  have hzero : (s :: rest).countP
      (fun c => decide (matchClass nq c = minClassOf nq (candidatesOf inds nq))) = 0 := by
    rw [List.countP_eq_zero]
    intro x hx
    simp only [decide_eq_true_eq]
    intro hxeq
    have h1 := hge x hx
    omega
  rw [hzero]
  simp [hmin]

theorem find_individual_empty (inds : Dict Individual) (query : String)
    (hnq : normalise query = "") :
    find_individual inds query = .error "Empty name provided" := by
  unfold find_individual
  rw [if_pos hnq]

theorem find_individual_nil (inds : Dict Individual) (query : String)
    (hnq : normalise query ≠ "") (hS : sortedMatches inds (normalise query) = []) :
    find_individual inds query =
      .error ("Could not find an individual matching " ++ query ++ ".") := by
  unfold find_individual
  rw [if_neg hnq, hS]

theorem find_individual_single (inds : Dict Individual) (query : String)
    (b : Individual) (hnq : normalise query ≠ "")
    (hS : sortedMatches inds (normalise query) = [b]) :
    find_individual inds query = .ok b := by
  unfold find_individual
  rw [if_neg hnq, hS]

theorem find_individual_tie (inds : Dict Individual) (query : String)
    (b s : Individual) (rest : List Individual) (hnq : normalise query ≠ "")
    (hS : sortedMatches inds (normalise query) = b :: s :: rest)
    (h : (scoreOf (normalise query) s).1 = (scoreOf (normalise query) b).1) :
    find_individual inds query =
      .error ("Multiple individuals match " ++ query ++
        ". Please be more specific or use an ID.") := by
  unfold find_individual
  rw [if_neg hnq, hS]
  show (if (scoreOf (normalise query) s).1 = (scoreOf (normalise query) b).1 then _ else _) = _
  rw [if_pos h]

theorem find_individual_notie (inds : Dict Individual) (query : String)
    (b s : Individual) (rest : List Individual) (hnq : normalise query ≠ "")
    (hS : sortedMatches inds (normalise query) = b :: s :: rest)
    (h : ¬(scoreOf (normalise query) s).1 = (scoreOf (normalise query) b).1) :
    find_individual inds query = .ok b := by
  unfold find_individual
  rw [if_neg hnq, hS]
  show (if (scoreOf (normalise query) s).1 = (scoreOf (normalise query) b).1 then _ else _) = _
  rw [if_neg h]

/-- C8: `find_individual` returns the unique best match under the
precedence exact > prefix > substring on normalised display names (the
returned individual is a candidate whose precedence class is the best one
and is the only candidate in that class), and it raises exactly when the
query normalises to empty, when no normalised display name contains the
normalised query, or when at least two candidates share the best
precedence class (the ambiguous case). -/
theorem claim_C8_find_individual (inds : Dict Individual) (query : String) :
    ((∃ msg, find_individual inds query = .error msg) ↔
      (normalise query = "" ∨ candidatesOf inds (normalise query) = [] ∨
        2 ≤ bestCount inds (normalise query))) ∧
    (∀ b, find_individual inds query = .ok b →
      b ∈ candidatesOf inds (normalise query) ∧
      matchClass (normalise query) b =
        minClassOf (normalise query) (candidatesOf inds (normalise query)) ∧
      bestCount inds (normalise query) = 1) := by
  by_cases hnq : normalise query = ""
  · refine ⟨⟨fun _ => Or.inl hnq, fun _ => ⟨_, find_individual_empty inds query hnq⟩⟩, ?_⟩
    intro b hb
    rw [find_individual_empty inds query hnq] at hb
    cases hb
  · rcases hS : sortedMatches inds (normalise query) with _ | ⟨b, _ | ⟨s, rest⟩⟩
    · have hC := candidates_nil_of_sorted_nil hS
      refine ⟨⟨fun _ => Or.inr (Or.inl hC),
        fun _ => ⟨_, find_individual_nil inds query hnq hS⟩⟩, ?_⟩
      intro b hb
      rw [find_individual_nil inds query hnq hS] at hb
      cases hb
    · have hcount := bestCount_single inds (normalise query) b hS
      have hok := find_individual_single inds query b hnq hS
      refine ⟨⟨?_, ?_⟩, ?_⟩
      · rintro ⟨msg, hmsg⟩
        rw [hok] at hmsg
        cases hmsg
      · intro hdisj
        rcases hdisj with h | h | h
        · exact absurd h hnq
        · exfalso
          have hbC := head_mem_candidates hS
          rw [h] at hbC
          cases hbC
        · omega
      · intro b2 hb2
        rw [hok] at hb2
        injection hb2 with hb2e
        subst hb2e
        exact ⟨head_mem_candidates hS, head_class_min inds (normalise query) b [] hS,
          hcount⟩
    · by_cases htie : (scoreOf (normalise query) s).1 = (scoreOf (normalise query) b).1
      · have herr := find_individual_tie inds query b s rest hnq hS htie
        have hcount := bestCount_tie inds (normalise query) b s rest hS htie
        refine ⟨⟨fun _ => Or.inr (Or.inr hcount), fun _ => ⟨_, herr⟩⟩, ?_⟩
        intro b2 hb2
        rw [herr] at hb2
        cases hb2
      · have hok := find_individual_notie inds query b s rest hnq hS htie
        have hcount := bestCount_notie inds (normalise query) b s rest hS htie
        refine ⟨⟨?_, ?_⟩, ?_⟩
        · rintro ⟨msg, hmsg⟩
          rw [hok] at hmsg
          cases hmsg
        · intro hdisj
          rcases hdisj with h | h | h
          · exact absurd h hnq
          · exfalso
            have hbC := head_mem_candidates hS
            rw [h] at hbC
            cases hbC
          · omega
        · intro b2 hb2
          rw [hok] at hb2
          injection hb2 with hb2e
          subst hb2e
          exact ⟨head_mem_candidates hS,
            head_class_min inds (normalise query) b (s :: rest) hS, hcount⟩

/-- Witness for C8: on a concrete two-person dictionary the query "john"
matches exactly one individual, which is returned as the unique best
match. -/
theorem claim_C8_find_individual_witness :
    { id := "@I1@", name := "John /Smith/" } ∈
      candidatesOf
        [("@I1@", { id := "@I1@", name := "John /Smith/" }),
         ("@I2@", { id := "@I2@", name := "Jane /Doe/" })] (normalise "john") ∧
    bestCount
      [("@I1@", { id := "@I1@", name := "John /Smith/" }),
       ("@I2@", { id := "@I2@", name := "Jane /Doe/" })] (normalise "john") = 1 := by
  have h := (claim_C8_find_individual
    [("@I1@", { id := "@I1@", name := "John /Smith/" }),
     ("@I2@", { id := "@I2@", name := "Jane /Doe/" })] "john").2
    { id := "@I1@", name := "John /Smith/" } rfl
  exact ⟨h.1, h.2.2⟩
